import Mathlib

/-!
Verification of the fermatter text-analysis front end.

Strings of the TypeScript source are modelled as `List Char`; the
(length-preserving) per-character case mapping models
`String.prototype.toLowerCase`, and the JavaScript whitespace class of
`\s` and `trim()` is modelled by its ASCII members.  Fallible lookups
(`indexOf` returning -1, indexing past the end of an array) are modelled
with `Option`.
-/

namespace Fermatter

/-- JS strings, modelled as lists of characters. -/
abbrev Str := List Char

/-- The character class matched by `\s` and stripped by `trim()`
(ASCII members). -/
def jsIsWs (c : Char) : Bool :=
  c == ' ' || c == '\t' || c == '\n' || c == '\r' || c == '\x0b' || c == '\x0c'

/-- `String.prototype.toLowerCase`, as a per-character case mapping. -/
def lowerStr (s : Str) : Str := s.map Char.toLower

/-- `String.prototype.trim()`: strip whitespace from both ends. -/
def jsTrim (s : Str) : Str :=
  ((s.dropWhile jsIsWs).reverse.dropWhile jsIsWs).reverse

/-- `pat` is a prefix of `s` (helper for the `indexOf` model). -/
def leadsWith : Str → Str → Bool
  | [], _ => true
  | _ :: _, [] => false
  | p :: ps, c :: cs => p == c && leadsWith ps cs

/-- `String.prototype.indexOf`: index of the leftmost occurrence of
`pat` in `hay`, `none` standing for the JS return value -1. -/
def jsIndexOf : Str → Str → Option Nat
  | hay, pat =>
    match hay with
    | [] => if leadsWith pat [] then some 0 else none
    | c :: t => if leadsWith pat (c :: t) then some 0 else (jsIndexOf t pat).map (· + 1)

/-- A half-open character range `{start, end}` (the source field `end`
is called `stop` here because `end` is a Lean keyword). -/
structure Span where
  start : Nat
  stop : Nat
deriving Repr, DecidableEq

/-- `findTextPosition` from demo_app.tsx:
case-insensitive leftmost search of `anchorText` in `paragraphContent`. -/
def findTextPosition (paragraphContent anchorText : Str) : Option Span :=
  match jsIndexOf (lowerStr paragraphContent) (lowerStr anchorText) with
  | none => none
  | some index => some ⟨index, index + anchorText.length⟩

/-- A paragraph record `{content, start, end}` as built by
`splitIntoParagraphs` in EditorPage.tsx (again `end` is rendered `stop`). -/
structure ParaSpan where
  content : Str
  start : Nat
  stop : Nat
deriving Repr, DecidableEq

/-- JS array indexing `paragraphs[paragraphIndex]` where the index is an
arbitrary (possibly negative) integer: `undefined` is `none`. -/
def getAtInt (l : List ParaSpan) (i : Int) : Option ParaSpan :=
  if i < 0 then none else l.get? i.toNat

/-- `findAnchorPosition` from EditorPage.tsx: absolute position of the
anchor text inside the document, via the paragraph record. -/
def findAnchorPosition (paragraphs : List ParaSpan) (paragraphIndex : Int)
    (anchorText : Str) : Option Span :=
  match getAtInt paragraphs paragraphIndex with
  | none => none
  | some para =>
    match jsIndexOf (lowerStr para.content) (lowerStr anchorText) with
    | none => none
    | some relativeIndex =>
      some ⟨para.start + relativeIndex, para.start + relativeIndex + anchorText.length⟩

/-- `pat` occurs in `hay` starting at index `i`. -/
def OccursAt (hay pat : Str) (i : Nat) : Prop :=
  ∃ b, hay.drop i = pat ++ b

/-- `String.prototype.slice(a, b)` for `0 ≤ a ≤ b`. -/
def jsSlice (s : Str) (a b : Nat) : Str := (s.drop a).take (b - a)

/-- `String.prototype.slice(a)` (to the end of the string). -/
def jsSliceFrom (s : Str) (a : Nat) : Str := s.drop a

/-- Result of `renderParagraphWithHighlight` in Editor.tsx: either the
paragraph verbatim, or the three JSX segments around the `<mark>`. -/
inductive Rendered where
  | plain (text : Str)
  | highlighted (before mid after : Str)
deriving Repr, DecidableEq

/-- The text a `Rendered` value displays, in order. -/
def renderedText : Rendered → Str
  | Rendered.plain t => t
  | Rendered.highlighted b m a => b ++ m ++ a

/-- `renderParagraphWithHighlight` from Editor.tsx.  The JS guard
`!isTarget || !anchor` treats both `null` and the empty string as falsy,
hence the `none` and `[]` cases. -/
def renderParagraphWithHighlight (para : Str) (isTarget : Bool) (anchor : Option Str) :
    Rendered :=
  match anchor with
  | none => Rendered.plain para
  | some anc =>
    if isTarget = false ∨ anc = [] then Rendered.plain para
    else
      match jsIndexOf (lowerStr para) (lowerStr anc) with
      | none => Rendered.plain para
      | some index =>
        Rendered.highlighted (jsSlice para 0 index)
          (jsSlice para index (index + anc.length))
          (jsSliceFrom para (index + anc.length))

/-- An entry of `BUILT_IN_SOURCES` in the sources module (the fields a
`LibrarySource` adds on top are filled in by `getBuiltInSources`). -/
structure LibrarySourceCore where
  id : String
  title : String
  url : String
  snippet : String
  category : String
  isBuiltIn : Bool
deriving Repr, DecidableEq

/-- `LibrarySource` from the sources module; `Date` values are modelled
as epoch milliseconds. -/
structure LibrarySource where
  id : String
  userId : String
  title : String
  url : String
  snippet : String
  category : String
  isBuiltIn : Bool
  createdAt : Nat
  updatedAt : Nat
deriving Repr, DecidableEq

/-- The built-in demo source registry `BUILT_IN_SOURCES`. -/
def BUILT_IN_SOURCES : List LibrarySourceCore :=
  [⟨"S1", "The Elements of Style",
    "https://en.wikipedia.org/wiki/The_Elements_of_Style",
    "Omit needless words. Vigorous writing is concise. A sentence should contain no unnecessary words, a paragraph no unnecessary sentences.",
    "style-guide", true⟩,
   ⟨"S2", "On Writing Well - William Zinsser",
    "https://en.wikipedia.org/wiki/On_Writing_Well",
    "Clutter is the disease of American writing. We are a society strangling in unnecessary words, circular constructions, pompous frills and meaningless jargon.",
    "style-guide", true⟩,
   ⟨"S3", "APA Publication Manual (7th ed.)",
    "https://apastyle.apa.org/",
    "Scholarly writing should be clear, concise, and free of bias. Every claim should be supported by evidence, properly cited.",
    "reference", true⟩,
   ⟨"S4", "Chicago Manual of Style",
    "https://www.chicagomanualofstyle.org/",
    "Good writing is good thinking made visible. Structure your arguments logically and support claims with credible sources.",
    "reference", true⟩,
   ⟨"S5", "Nature: How to Write a Paper",
    "https://www.nature.com/nature/for-authors/formatting-guide",
    "Scientific papers should present findings clearly. Avoid jargon where possible. State limitations explicitly.",
    "research", true⟩,
   ⟨"S6", "Plain Language Guidelines",
    "https://www.plainlanguage.gov/guidelines/",
    "Use simple words and short sentences. Write for your reader, not yourself. Organize information logically.",
    "style-guide", true⟩,
   ⟨"S7", "Critical Thinking - Stanford Encyclopedia",
    "https://plato.stanford.edu/entries/critical-thinking/",
    "Critical thinking involves careful examination of claims and arguments. Identify assumptions, evaluate evidence, and consider alternative interpretations.",
    "research", true⟩,
   ⟨"S8", "Logical Fallacies - Purdue OWL",
    "https://owl.purdue.edu/owl/general_writing/academic_writing/logic_in_argumentative_writing/",
    "Common fallacies include ad hominem attacks, straw man arguments, false dichotomies, and appeals to authority without evidence.",
    "reference", true⟩]

/-- `getBuiltInSources()`: the registry entries completed with the fixed
system fields (`userId: 'system'`, `createdAt/updatedAt: new Date(0)`). -/
def getBuiltInSources : List LibrarySource :=
  BUILT_IN_SOURCES.map (fun s =>
    ⟨s.id, "system", s.title, s.url, s.snippet, s.category, s.isBuiltIn, 0, 0⟩)

/-- `getSourcesByIds(ids)` from the sources module. -/
def getSourcesByIds (ids : List String) : List LibrarySource :=
  getBuiltInSources.filter (fun s => ids.contains s.id)

/-- One global-regex pass `str.replace(/c/g, rep)` for a single-character
pattern `c`. -/
def replaceChar (target : Char) (rep : Str) (s : Str) : Str :=
  s.flatMap (fun c => if c = target then rep else [c])

/-- The double-quote character (written via its code point to keep the
source readable). -/
def quoteChar : Char := Char.ofNat 34

/-- The apostrophe character. -/
def aposChar : Char := Char.ofNat 39

/-- `escapeHtml` from EditorPage.tsx: the six chained global replaces, in
source order. -/
def escapeHtml (s : Str) : Str :=
  replaceChar '\n' ("<br>".toList)
    (replaceChar aposChar ("&#039;".toList)
      (replaceChar quoteChar ("&quot;".toList)
        (replaceChar '>' ("&gt;".toList)
          (replaceChar '<' ("&lt;".toList)
            (replaceChar '&' ("&amp;".toList) s)))))

/-- The per-character escape map that `escapeHtml` implements (used to
state that each input character is escaped independently, so the `&` of
an emitted entity is never re-escaped). -/
def escChar (c : Char) : Str :=
  if c = '&' then "&amp;".toList
  else if c = '<' then "&lt;".toList
  else if c = '>' then "&gt;".toList
  else if c = quoteChar then "&quot;".toList
  else if c = aposChar then "&#039;".toList
  else if c = '\n' then "<br>".toList
  else [c]

/-- A text snapshot `{ts, text}`. -/
structure Snapshot where
  ts : Str
  text : Str
deriving Repr, DecidableEq

/-- `MAX_SNAPSHOTS` from EditorPage.tsx. -/
def MAX_SNAPSHOTS : Nat := 20

/-- The state `createSnapshot` reads and writes: the `snapshots` React
state and the `lastTextRef` ref. -/
structure SnapshotState where
  snapshots : List Snapshot
  lastText : Str
deriving Repr, DecidableEq

/-- `createSnapshot` from EditorPage.tsx, as a state transformer; `now`
is the value of `new Date().toISOString()` at the call. -/
def createSnapshot (now text : Str) (st : SnapshotState) : SnapshotState :=
  if jsTrim text = [] ∨ text = st.lastText then st
  else
    let snapshot : Snapshot := ⟨now, text⟩
    let updated := st.snapshots ++ [snapshot]
    { snapshots :=
        if updated.length > MAX_SNAPSHOTS then
          updated.drop (updated.length - MAX_SNAPSHOTS)
        else updated,
      lastText := text }

/-- One step state of the global-regex loop of `splitIntoParagraphs` in
EditorPage.tsx (pattern `/[^\n]+(?:\n(?!\n)[^\n]*)*/g`): `none` while
between matches, otherwise the characters matched so far (reversed), the
match start `match.index`, and whether a just-consumed `\n` is still
awaiting its `(?!\n)` lookahead at the next character. -/
def pageScan : Str → Nat → Option (Str × Nat × Bool) → List (Str × Nat)
  | [], _, none => []
  | [], _, some (cur, st, pend) => [((if pend then '\n' :: cur else cur).reverse, st)]
  | c :: rest, pos, none =>
    if c = '\n' then pageScan rest (pos + 1) none
    else pageScan rest (pos + 1) (some ([c], pos, false))
  | c :: rest, pos, some (cur, st, pend) =>
    if c = '\n' then
      if pend then (cur.reverse, st) :: pageScan rest (pos + 1) none
      else pageScan rest (pos + 1) (some (cur, st, true))
    else
      if pend then pageScan rest (pos + 1) (some (c :: '\n' :: cur, st, false))
      else pageScan rest (pos + 1) (some (c :: cur, st, false))

/-- A paragraph record of `splitIntoParagraphs` in EditorPage.tsx; the
source id `p${idx}` is represented by its numeric part `idx`, and the
source field `end` is rendered `stop`. -/
structure PageParagraph where
  idx : Nat
  content : Str
  start : Nat
  stop : Nat
deriving Repr, DecidableEq

/-- `splitIntoParagraphs` from EditorPage.tsx: run the regex loop over
the text, keep the matches whose `trim()` is truthy, and number the
survivors consecutively. -/
def splitIntoParagraphsPage (text : Str) : List PageParagraph :=
  (((pageScan text 0 none).filter (fun m => jsTrim m.1 ≠ [])).enum).map
    (fun e => ⟨e.1, e.2.1, e.2.2, e.2.2 + e.2.1.length⟩)

/-- Greedy backtracking of `\s*` inside the separator `/\n\s*\n/`: the
index, within the maximal whitespace prefix of `s`, of the last newline. -/
def findLastNl : Str → Option Nat
  | [] => none
  | c :: rest =>
    if jsIsWs c then
      match findLastNl rest with
      | some j => some (j + 1)
      | none => if c = '\n' then some 0 else none
    else none

/-- Length of the separator match of `/\n\s*\n/` starting at the head of
`s`, if any: a newline, then the greedy-longest whitespace run whose next
character is again a newline. -/
def sepMatchAt : Str → Option Nat
  | [] => none
  | c :: rest => if c = '\n' then (findLastNl rest).map (· + 2) else none

/-- `text.split(/\n\s*\n/)`: scan left to right, splitting at each
leftmost separator match; `acc` holds the piece being built (reversed). -/
def splitOnBlank (s : Str) (acc : Str) : List Str :=
  match h : sepMatchAt s with
  | some n => acc.reverse :: splitOnBlank (s.drop n) []
  | none =>
    match s with
    | [] => [acc.reverse]
    | c :: t => splitOnBlank t (c :: acc)
termination_by s.length
decreasing_by
· have hpos : 0 < n := by
    unfold sepMatchAt at h
    cases s with
    | nil => cases h
    | cons c rest =>
      have h' : (if c = '\n' then (findLastNl rest).map (· + 2) else none) = some n := h
      by_cases hc : c = '\n'
      · rw [if_pos hc] at h'
        rcases hfind : findLastNl rest with _ | j
        · rw [hfind] at h'
          cases h'
        · rw [hfind] at h'
          simp only [Option.map_some', Option.some.injEq] at h'
          omega
      · rw [if_neg hc] at h'
        cases h'
  have hlen : 0 < s.length := by
    cases s with
    | nil => cases h
    | cons c rest => simp
  simp only [List.length_drop]
  omega
· simp

/-- `splitIntoParagraphs` from Editor.tsx:
`text.split(/\n\s*\n/).filter((p) => p.trim())`. -/
def splitIntoParagraphsEditor (text : Str) : List Str :=
  (splitOnBlank text []).filter (fun p => jsTrim p ≠ [])

/-- Walk of a document counting, for each pair of adjacent
non-whitespace characters, the whitespace gaps between them holding at
least two newlines (`seen`: a non-whitespace character has been passed;
`nl`: newlines in the current whitespace gap). -/
def gapsCounter : Str → Bool → Nat → Nat
  | [], _, _ => 0
  | c :: t, seen, nl =>
    if jsIsWs c then gapsCounter t seen (if c = '\n' then nl + 1 else nl)
    else (if seen ∧ 2 ≤ nl then 1 else 0) + gapsCounter t true 0

/-- The state in which `gapsCounter` finishes a walk (used to compose
walks over appended strings). -/
def gapsState : Str → Bool → Nat → Bool × Nat
  | [], seen, nl => (seen, nl)
  | c :: t, seen, nl =>
    if jsIsWs c then gapsState t seen (if c = '\n' then nl + 1 else nl)
    else gapsState t true 0

/-- Side condition comparing the two segmentation implementations (the
amended C5 hypothesis, written from the claim wording): every
whitespace-only run lying strictly between two newlines consists of
newlines alone, so the separator regex of the Editor never matches a
spaced-out pair of newlines. -/
def noSpacedSep (s : Str) : Prop :=
  ∀ u w v, s = u ++ '\n' :: (w ++ '\n' :: v) → w.all jsIsWs = true →
    ∀ c, c ∈ w → c = '\n'

/-- `Observation` from lib/types.ts (`severity`/`paragraph` are JS
numbers, modelled as integers). -/
structure Observation where
  id : String
  type : String
  severity : Int
  paragraph : Int
  anchor_text : Option Str
  title : Str
  note : Str
  question : Str
  source_ids : List String
deriving Repr, DecidableEq

/-- The FeedbackPanel sort comparator returns a negative number on
`(a, b)`: `a` must come strictly before `b`. -/
def obsBefore (a b : Observation) : Prop :=
  a.paragraph < b.paragraph ∨ (a.paragraph = b.paragraph ∧ b.severity < a.severity)

instance (a b : Observation) : Decidable (obsBefore a b) := by
  unfold obsBefore
  exact inferInstance

/-- The comparator is non-positive on `(a, b)`: ascending paragraph,
then descending severity. -/
def obsLe (a b : Observation) : Prop :=
  a.paragraph < b.paragraph ∨ (a.paragraph = b.paragraph ∧ b.severity ≤ a.severity)

/-- Stable insertion of `o` after every already-placed element the
comparator does not order strictly after `o`. -/
def insertObs (o : Observation) : List Observation → List Observation
  | [] => [o]
  | x :: xs => if obsBefore o x then o :: x :: xs else x :: insertObs o xs

/-- `sortedObservations` from FeedbackPanel.tsx:
`[...observations].sort((a, b) => ...)`.  `Array.prototype.sort` is
required to be stable (ES2019), and a stable sort by this comparator is
unique, so it is modelled by stable insertion sort. -/
def sortedObservations (observations : List Observation) : List Observation :=
  observations.foldl (fun acc o => insertObs o acc) []

theorem leadsWith_iff (p s : Str) : leadsWith p s = true ↔ ∃ t, s = p ++ t := by
  induction p generalizing s with
  | nil => simp [leadsWith]
  | cons a ps ih =>
    cases s with
    | nil => simp [leadsWith]
    | cons c cs =>
      simp only [leadsWith, Bool.and_eq_true, beq_iff_eq, ih, List.cons_append,
        List.cons.injEq]
      constructor
      · rintro ⟨rfl, t, rfl⟩; exact ⟨t, rfl, rfl⟩
      · rintro ⟨t, rfl, rfl⟩; exact ⟨rfl, t, rfl⟩

theorem jsIndexOf_none_iff (hay pat : Str) :
    jsIndexOf hay pat = none ↔ ¬ ∃ i, OccursAt hay pat i := by
  induction hay with
  | nil =>
    simp only [jsIndexOf]
    by_cases hl : leadsWith pat [] = true
    · rw [if_pos hl]
      rw [leadsWith_iff] at hl
      obtain ⟨t, ht⟩ := hl
      refine iff_of_false (by simp) (not_not_intro ?_)
      exact ⟨0, t, by simpa using ht⟩
    · rw [if_neg hl]
      simp only [true_iff]
      rintro ⟨i, b, hb⟩
      rw [List.drop_nil] at hb
      exact hl ((leadsWith_iff _ _).2 ⟨b, hb⟩)
  | cons c t ih =>
    simp only [jsIndexOf]
    by_cases hl : leadsWith pat (c :: t) = true
    · rw [if_pos hl]
      rw [leadsWith_iff] at hl
      obtain ⟨u, hu⟩ := hl
      refine iff_of_false (by simp) (not_not_intro ?_)
      exact ⟨0, u, by simpa using hu⟩
    · rw [if_neg hl]
      rw [Option.map_eq_none', ih]
      constructor
      · rintro hno ⟨i, b, hb⟩
        cases i with
        | zero =>
          rw [List.drop_zero] at hb
          exact hl ((leadsWith_iff _ _).2 ⟨b, hb⟩)
        | succ j => exact hno ⟨j, b, by simpa using hb⟩
      · intro hno hex
        obtain ⟨j, b, hb⟩ := hex
        exact hno ⟨j + 1, b, by simpa using hb⟩

theorem jsIndexOf_some (hay pat : Str) (i : Nat) (h : jsIndexOf hay pat = some i) :
    OccursAt hay pat i ∧ ∀ j, j < i → ¬ OccursAt hay pat j := by
  induction hay generalizing i with
  | nil =>
    simp only [jsIndexOf] at h
    by_cases hl : leadsWith pat [] = true
    · rw [if_pos hl] at h
      cases h
      rw [leadsWith_iff] at hl
      obtain ⟨t, ht⟩ := hl
      exact ⟨⟨t, by simpa using ht⟩, by omega⟩
    · rw [if_neg hl] at h
      cases h
  | cons c t ih =>
    simp only [jsIndexOf] at h
    by_cases hl : leadsWith pat (c :: t) = true
    · rw [if_pos hl] at h
      cases h
      rw [leadsWith_iff] at hl
      obtain ⟨u, hu⟩ := hl
      exact ⟨⟨u, by simpa using hu⟩, by omega⟩
    · rw [if_neg hl] at h
      rcases hmap : jsIndexOf t pat with _ | j
      · rw [hmap] at h
        cases h
      · rw [hmap] at h
        simp only [Option.map_some'] at h
        cases h
        obtain ⟨hocc, hmin⟩ := ih j hmap
        refine ⟨?_, ?_⟩
        · obtain ⟨b, hb⟩ := hocc
          exact ⟨b, by simpa using hb⟩
        · intro k hk
          cases k with
          | zero =>
            rintro ⟨b, hb⟩
            rw [List.drop_zero] at hb
            exact hl ((leadsWith_iff _ _).2 ⟨b, hb⟩)
          | succ m =>
            rintro ⟨b, hb⟩
            exact hmin m (by omega) ⟨b, by simpa using hb⟩

theorem occursAt_iff_decomp (hay pat : Str) :
    (∃ i, OccursAt hay pat i) ↔ ∃ a b, hay = a ++ pat ++ b := by
  constructor
  · rintro ⟨i, b, hb⟩
    refine ⟨hay.take i, b, ?_⟩
    conv_lhs => rw [← List.take_append_drop i hay]
    rw [hb, List.append_assoc]
  · rintro ⟨a, b, rfl⟩
    refine ⟨a.length, b, ?_⟩
    simp

theorem getAtInt_eq_none_iff (l : List ParaSpan) (i : Int) :
    getAtInt l i = none ↔ i < 0 ∨ (l.length : Int) ≤ i := by
  unfold getAtInt
  by_cases h : i < 0
  · simp [h]
  · rw [if_neg h, List.get?_eq_none]
    omega

/-- **C1.** `findTextPosition` returns `none` exactly when the lowercased
paragraph does not contain the lowercased anchor as a substring; otherwise
it returns the span whose `start` is the smallest index at which the
lowercased anchor occurs in the lowercased paragraph and whose `end` is
`start + anchorText.length`. -/
theorem C1_findTextPosition_leftmost (paragraphContent anchorText : Str) :
    (findTextPosition paragraphContent anchorText = none ↔
      ¬ ∃ a b, lowerStr paragraphContent = a ++ lowerStr anchorText ++ b) ∧
    (∀ sp, findTextPosition paragraphContent anchorText = some sp →
      OccursAt (lowerStr paragraphContent) (lowerStr anchorText) sp.start ∧
      (∀ j, j < sp.start → ¬ OccursAt (lowerStr paragraphContent) (lowerStr anchorText) j) ∧
      sp.stop = sp.start + anchorText.length) := by
  unfold findTextPosition
  rcases h : jsIndexOf (lowerStr paragraphContent) (lowerStr anchorText) with _ | i
  · constructor
    · rw [jsIndexOf_none_iff] at h
      rw [← occursAt_iff_decomp]
      exact iff_of_true rfl h
    · intro sp hsp
      cases hsp
  · obtain ⟨hocc, hmin⟩ := jsIndexOf_some _ _ _ h
    constructor
    · refine iff_of_false (by simp) (not_not_intro ?_)
      rw [← occursAt_iff_decomp]
      exact ⟨i, hocc⟩
    · intro sp hsp
      cases hsp
      exact ⟨hocc, hmin, rfl⟩

theorem C1_findTextPosition_leftmost_witness :
    OccursAt (lowerStr (['a', 'B', 'c', 'B', 'c'])) (lowerStr (['b', 'C'])) 1 ∧
    (∀ j, j < 1 → ¬ OccursAt (lowerStr (['a', 'B', 'c', 'B', 'c'])) (lowerStr (['b', 'C'])) j) ∧
    (3 : Nat) = 1 + (['b', 'C'] : Str).length :=
  (C1_findTextPosition_leftmost ['a', 'B', 'c', 'B', 'c'] ['b', 'C']).2 ⟨1, 3⟩ (by decide)

/-- **C2.** `findAnchorPosition` never throws (it is a total function of its
inputs); it returns `none` when `paragraphIndex` is out of range of the
paragraph list or when the lowercased anchor does not occur in the lowercased
paragraph content, and any returned span is in document-global coordinates:
`start` is the paragraph start offset plus the in-paragraph match index and
`end = start + anchorText.length`. -/
theorem C2_findAnchorPosition_spec (paragraphs : List ParaSpan) (paragraphIndex : Int)
    (anchorText : Str) :
    (findAnchorPosition paragraphs paragraphIndex anchorText = none ↔
      (paragraphIndex < 0 ∨ (paragraphs.length : Int) ≤ paragraphIndex) ∨
      ∃ para, getAtInt paragraphs paragraphIndex = some para ∧
        ¬ ∃ a b, lowerStr para.content = a ++ lowerStr anchorText ++ b) ∧
    (∀ sp, findAnchorPosition paragraphs paragraphIndex anchorText = some sp →
      ∃ para i, getAtInt paragraphs paragraphIndex = some para ∧
        jsIndexOf (lowerStr para.content) (lowerStr anchorText) = some i ∧
        OccursAt (lowerStr para.content) (lowerStr anchorText) i ∧
        sp.start = para.start + i ∧ sp.stop = sp.start + anchorText.length) := by
  rcases hget : getAtInt paragraphs paragraphIndex with _ | para
  · have hred : findAnchorPosition paragraphs paragraphIndex anchorText = none := by
      unfold findAnchorPosition
      rw [hget]
    rw [hred]
    rw [getAtInt_eq_none_iff] at hget
    constructor
    · exact iff_of_true rfl (Or.inl hget)
    · intro sp hsp
      cases hsp
  · have hmid : findAnchorPosition paragraphs paragraphIndex anchorText =
        match jsIndexOf (lowerStr para.content) (lowerStr anchorText) with
        | none => none
        | some relativeIndex =>
          some ⟨para.start + relativeIndex, para.start + relativeIndex + anchorText.length⟩ := by
      unfold findAnchorPosition
      rw [hget]
    rcases h : jsIndexOf (lowerStr para.content) (lowerStr anchorText) with _ | i
    · have hred : findAnchorPosition paragraphs paragraphIndex anchorText = none := by
        rw [hmid, h]
      rw [hred]
      constructor
      · rw [jsIndexOf_none_iff] at h
        refine iff_of_true rfl (Or.inr ⟨para, rfl, ?_⟩)
        rw [← occursAt_iff_decomp]
        exact h
      · intro sp hsp
        cases hsp
    · have hred : findAnchorPosition paragraphs paragraphIndex anchorText =
          some ⟨para.start + i, para.start + i + anchorText.length⟩ := by
        rw [hmid, h]
      rw [hred]
      obtain ⟨hocc, _⟩ := jsIndexOf_some _ _ _ h
      constructor
      · refine iff_of_false (by simp) ?_
        rintro (hout | ⟨para', hpara', hno⟩)
        · have hc : getAtInt paragraphs paragraphIndex = none :=
            (getAtInt_eq_none_iff _ _).2 hout
          rw [hget] at hc
          exact Option.noConfusion hc
        · cases hpara'
          rw [← occursAt_iff_decomp] at hno
          exact hno ⟨i, hocc⟩
      · intro sp hsp
        cases hsp
        exact ⟨para, i, rfl, h, hocc, rfl, rfl⟩

theorem C2_findAnchorPosition_spec_witness :
    ∃ para i,
      getAtInt [⟨['x', 'Y', 'q'], 4, 7⟩] 0 = some para ∧
      jsIndexOf (lowerStr para.content) (lowerStr ['y', 'Q']) = some i ∧
      OccursAt (lowerStr para.content) (lowerStr ['y', 'Q']) i ∧
      (5 : Nat) = para.start + i ∧ (7 : Nat) = 5 + (['y', 'Q'] : Str).length :=
  (C2_findAnchorPosition_spec [⟨['x', 'Y', 'q'], 4, 7⟩] 0 ['y', 'Q']).2 ⟨5, 7⟩ (by decide)

theorem take_drop_glue (s : Str) (i n : Nat) :
    (s.drop i).take n ++ s.drop (i + n) = s.drop i := by
  rw [← List.drop_drop, List.take_append_drop]

/-- **C8.** Highlight rendering never modifies the text: for every
paragraph, target flag and anchor, the segments produced by
`renderParagraphWithHighlight` concatenate to exactly the original
paragraph string (in particular, when no match exists the paragraph is
returned verbatim as the `plain` case), so displaying an anchored
observation never alters, drops, or duplicates any character. -/
theorem C8_render_preserves_text (para : Str) (isTarget : Bool) (anchor : Option Str) :
    renderedText (renderParagraphWithHighlight para isTarget anchor) = para := by
  rcases anchor with _ | anc
  · rfl
  · show renderedText
      (if isTarget = false ∨ anc = [] then Rendered.plain para
       else
         match jsIndexOf (lowerStr para) (lowerStr anc) with
         | none => Rendered.plain para
         | some index =>
           Rendered.highlighted (jsSlice para 0 index)
             (jsSlice para index (index + anc.length))
             (jsSliceFrom para (index + anc.length))) = para
    by_cases hguard : isTarget = false ∨ anc = []
    · rw [if_pos hguard]
      rfl
    · rw [if_neg hguard]
      rcases h : jsIndexOf (lowerStr para) (lowerStr anc) with _ | index
      · rfl
      · show jsSlice para 0 index ++ jsSlice para index (index + anc.length) ++
          jsSliceFrom para (index + anc.length) = para
        have h1 : jsSlice para index (index + anc.length) ++
            jsSliceFrom para (index + anc.length) = para.drop index := by
          unfold jsSlice jsSliceFrom
          rw [Nat.add_sub_cancel_left, take_drop_glue]
        rw [List.append_assoc, h1]
        unfold jsSlice
        rw [List.drop_zero, Nat.sub_zero, List.take_append_drop]

theorem mem_getBuiltInSources (s : LibrarySource) (h : s ∈ getBuiltInSources) :
    ∃ b ∈ BUILT_IN_SOURCES, s.id = b.id ∧ s.title = b.title ∧ s.url = b.url ∧
      s.snippet = b.snippet ∧ s.category = b.category := by
  unfold getBuiltInSources at h
  rw [List.mem_map] at h
  obtain ⟨b, hb, rfl⟩ := h
  exact ⟨b, hb, rfl, rfl, rfl, rfl, rfl⟩

/-- **C7.** Source lookup never fabricates: every element of
`getSourcesByIds ids` is a registry entry (an element of
`BUILT_IN_SOURCES` with its metadata unchanged) whose id occurs in
`ids`; an id with no registry entry contributes nothing (every result
element's id names a registry entry).  The function is a pure total
Lean function by construction. -/
theorem C7_getSourcesByIds_no_fabrication (ids : List String) (s : LibrarySource)
    (h : s ∈ getSourcesByIds ids) :
    s.id ∈ ids ∧
    ∃ b ∈ BUILT_IN_SOURCES, s.id = b.id ∧ s.title = b.title ∧ s.url = b.url ∧
      s.snippet = b.snippet ∧ s.category = b.category := by
  unfold getSourcesByIds at h
  rw [List.mem_filter] at h
  obtain ⟨hmem, hid⟩ := h
  refine ⟨?_, mem_getBuiltInSources s hmem⟩
  have : List.elem s.id ids = true := hid
  rw [List.elem_iff] at this
  exact this

theorem C7_getSourcesByIds_no_fabrication_witness :
    ("S3" ∈ ["S3", "S999"] ∧
      ∃ b ∈ BUILT_IN_SOURCES, "S3" = b.id ∧
        "APA Publication Manual (7th ed.)" = b.title ∧
        "https://apastyle.apa.org/" = b.url ∧
        "Scholarly writing should be clear, concise, and free of bias. Every claim should be supported by evidence, properly cited." = b.snippet ∧
        "reference" = b.category) :=
  C7_getSourcesByIds_no_fabrication ["S3", "S999"]
    ⟨"S3", "system", "APA Publication Manual (7th ed.)", "https://apastyle.apa.org/",
      "Scholarly writing should be clear, concise, and free of bias. Every claim should be supported by evidence, properly cited.",
      "reference", true, 0, 0⟩ (by decide)

theorem replaceChar_append (t : Char) (r : Str) (x y : Str) :
    replaceChar t r (x ++ y) = replaceChar t r x ++ replaceChar t r y := by
  simp [replaceChar]

theorem escapeHtml_append (x y : Str) :
    escapeHtml (x ++ y) = escapeHtml x ++ escapeHtml y := by
  simp only [escapeHtml, replaceChar_append]

theorem escapeHtml_single (c : Char) : escapeHtml [c] = escChar c := by
  by_cases h1 : c = '&'
  · subst h1; decide
  by_cases h2 : c = '<'
  · subst h2; decide
  by_cases h3 : c = '>'
  · subst h3; decide
  by_cases h4 : c = quoteChar
  · subst h4; decide
  by_cases h5 : c = aposChar
  · subst h5; decide
  by_cases h6 : c = '\n'
  · subst h6; decide
  simp [escapeHtml, replaceChar, escChar, h1, h2, h3, h4, h5, h6]

theorem escapeHtml_pointwise (s : Str) : escapeHtml s = s.flatMap escChar := by
  induction s with
  | nil => decide
  | cons c t ih =>
    have : (c :: t) = [c] ++ t := rfl
    rw [this, escapeHtml_append, List.flatMap_append, escapeHtml_single, ih,
      List.flatMap_cons, List.flatMap_nil, List.append_nil]

theorem escChar_safe (c : Char) (hc : c ≠ '\n') :
    ∀ d ∈ escChar c, d ≠ '<' ∧ d ≠ '>' ∧ d ≠ quoteChar ∧ d ≠ aposChar := by
  by_cases h1 : c = '&'
  · subst h1; decide
  by_cases h2 : c = '<'
  · subst h2; decide
  by_cases h3 : c = '>'
  · subst h3; decide
  by_cases h4 : c = quoteChar
  · subst h4; decide
  by_cases h5 : c = aposChar
  · subst h5; decide
  intro d hd
  have hd' : d = c := by
    simp only [escChar, if_neg h1, if_neg h2, if_neg h3, if_neg h4, if_neg h5,
      if_neg hc, List.mem_singleton] at hd
    exact hd
  subst hd'
  exact ⟨h2, h3, h4, h5⟩

/-- **C10.** `escapeHtml` escapes each input character independently (so
the `&` of an emitted entity is never re-escaped): it equals the
pointwise map `escChar`, under which `\n` is the only character whose
image contains `<` or `>` (namely the literal `<br>`), and for every
input without a newline the output contains no `<`, `>`, double-quote or
apostrophe character. -/
theorem C10_escapeHtml_safety (s : Str) :
    escapeHtml s = s.flatMap escChar ∧
    escChar '\n' = "<br>".toList ∧
    (∀ c, c ≠ '\n' → ∀ d ∈ escChar c, d ≠ '<' ∧ d ≠ '>' ∧ d ≠ quoteChar ∧ d ≠ aposChar) ∧
    ('\n' ∉ s → ∀ d ∈ escapeHtml s,
      d ≠ '<' ∧ d ≠ '>' ∧ d ≠ quoteChar ∧ d ≠ aposChar) := by
  refine ⟨escapeHtml_pointwise s, by decide, escChar_safe, ?_⟩
  intro hnl d hd
  rw [escapeHtml_pointwise, List.mem_flatMap] at hd
  obtain ⟨a, ha, hda⟩ := hd
  refine escChar_safe a ?_ d hda
  intro he
  exact hnl (he ▸ ha)

theorem C10_escapeHtml_safety_witness :
    ('&' : Char) ≠ '<' ∧ ('&' : Char) ≠ '>' ∧ ('&' : Char) ≠ quoteChar ∧
      ('&' : Char) ≠ aposChar :=
  (C10_escapeHtml_safety ['a', '&', 'b']).2.2.2 (by decide) '&' (by decide)

/-- **C9.** The snapshot history is bounded and ordered oldest-to-newest:
starting from a state with at most `MAX_SNAPSHOTS` snapshots,
`createSnapshot` leaves at most `MAX_SNAPSHOTS` snapshots; it leaves the
state unchanged when the text is whitespace-only or equal to the last
snapshotted text; and otherwise the retained list is a suffix of
`snapshots ++ [new]` (only the oldest entries are discarded, order
preserved), with nothing discarded while under the cap. -/
theorem C9_createSnapshot_invariants (now text : Str) (st : SnapshotState)
    (hlen : st.snapshots.length ≤ MAX_SNAPSHOTS) :
    (createSnapshot now text st).snapshots.length ≤ MAX_SNAPSHOTS ∧
    ((jsTrim text = [] ∨ text = st.lastText) → createSnapshot now text st = st) ∧
    (¬ (jsTrim text = [] ∨ text = st.lastText) →
      ∃ dropped,
        dropped ++ (createSnapshot now text st).snapshots =
          st.snapshots ++ [Snapshot.mk now text] ∧
        (st.snapshots.length + 1 ≤ MAX_SNAPSHOTS → dropped = [])) := by
  by_cases hguard : jsTrim text = [] ∨ text = st.lastText
  · have hred : createSnapshot now text st = st := by
      unfold createSnapshot
      rw [if_pos hguard]
    rw [hred]
    exact ⟨hlen, fun _ => rfl, fun hc => absurd hguard hc⟩
  · have hred : createSnapshot now text st =
        { snapshots :=
            if (st.snapshots ++ [Snapshot.mk now text]).length > MAX_SNAPSHOTS then
              (st.snapshots ++ [Snapshot.mk now text]).drop
                ((st.snapshots ++ [Snapshot.mk now text]).length - MAX_SNAPSHOTS)
            else st.snapshots ++ [Snapshot.mk now text],
          lastText := text } := by
      unfold createSnapshot
      rw [if_neg hguard]
    rw [hred]
    by_cases hover : (st.snapshots ++ [Snapshot.mk now text]).length > MAX_SNAPSHOTS
    · rw [if_pos hover]
      have hlen2 : (st.snapshots ++ [Snapshot.mk now text]).length =
          st.snapshots.length + 1 := by simp
      refine ⟨?_, fun h => absurd h hguard, fun _ => ?_⟩
      · rw [List.length_drop, hlen2]
        rw [hlen2] at hover
        omega
      · refine ⟨(st.snapshots ++ [Snapshot.mk now text]).take
          ((st.snapshots ++ [Snapshot.mk now text]).length - MAX_SNAPSHOTS), ?_, ?_⟩
        · exact List.take_append_drop _ _
        · intro hfits
          rw [hlen2] at hover
          omega
    · rw [if_neg hover]
      simp only [List.length_append, List.length_cons, List.length_nil] at hover
      refine ⟨?_, fun h => absurd h hguard, fun _ => ⟨[], rfl, fun _ => rfl⟩⟩
      simp only [List.length_append, List.length_cons, List.length_nil]
      omega

theorem C9_createSnapshot_invariants_witness :
    ((createSnapshot ['t'] ['a'] ⟨[], []⟩).snapshots.length ≤ MAX_SNAPSHOTS) ∧
    ((jsTrim ['a'] = [] ∨ ['a'] = ([] : Str)) → createSnapshot ['t'] ['a'] ⟨[], []⟩ = ⟨[], []⟩) ∧
    (¬ (jsTrim ['a'] = [] ∨ ['a'] = ([] : Str)) →
      ∃ dropped,
        dropped ++ (createSnapshot ['t'] ['a'] ⟨[], []⟩).snapshots =
          ([] : List Snapshot) ++ [Snapshot.mk ['t'] ['a']] ∧
        (([] : List Snapshot).length + 1 ≤ MAX_SNAPSHOTS → dropped = [])) :=
  C9_createSnapshot_invariants ['t'] ['a'] ⟨[], []⟩ (by decide)

theorem not_obsBefore_iff (a b : Observation) : ¬ obsBefore a b ↔ obsLe b a := by
  unfold obsBefore obsLe
  omega

theorem obsBefore_le (a b : Observation) (h : obsBefore a b) : obsLe a b := by
  unfold obsBefore at h
  unfold obsLe
  omega

theorem obsBefore_of_before_le (a b c : Observation) (h1 : obsBefore a b) (h2 : obsLe b c) :
    obsBefore a c := by
  unfold obsBefore at h1 ⊢
  unfold obsLe at h2
  omega

theorem mem_insertObs (o y : Observation) (l : List Observation) :
    y ∈ insertObs o l ↔ y = o ∨ y ∈ l := by
  induction l with
  | nil => simp [insertObs]
  | cons x xs ih =>
    unfold insertObs
    by_cases h : obsBefore o x
    · simp [h]
    · simp only [if_neg h, List.mem_cons, ih]
      tauto

theorem insertObs_perm (o : Observation) (l : List Observation) :
    List.Perm (insertObs o l) (o :: l) := by
  induction l with
  | nil => exact List.Perm.refl _
  | cons x xs ih =>
    unfold insertObs
    by_cases h : obsBefore o x
    · rw [if_pos h]
    · rw [if_neg h]
      exact (ih.cons x).trans (List.Perm.swap o x xs)

theorem pairwise_insertObs (o : Observation) (l : List Observation)
    (h : l.Pairwise obsLe) : (insertObs o l).Pairwise obsLe := by
  induction l with
  | nil => simp [insertObs]
  | cons x xs ih =>
    rw [List.pairwise_cons] at h
    obtain ⟨h1, h2⟩ := h
    unfold insertObs
    by_cases hb : obsBefore o x
    · rw [if_pos hb]
      rw [List.pairwise_cons]
      refine ⟨?_, ?_⟩
      · intro y hy
        rcases List.mem_cons.mp hy with rfl | hy'
        · exact obsBefore_le _ _ hb
        · exact obsBefore_le _ _ (obsBefore_of_before_le _ _ _ hb (h1 y hy'))
      · rw [List.pairwise_cons]
        exact ⟨h1, h2⟩
    · rw [if_neg hb]
      rw [List.pairwise_cons]
      refine ⟨?_, ih h2⟩
      intro y hy
      rcases (mem_insertObs o y xs).mp hy with heq | hy'
      · rw [heq]
        exact (not_obsBefore_iff o x).mp hb
      · exact h1 y hy'

theorem filter_key_eq_nil_of_before (o : Observation) (x : Observation)
    (xs : List Observation) (p s : Int)
    (hfo : (o.paragraph == p && o.severity == s) = true)
    (hb : obsBefore o x) (h1 : ∀ y ∈ xs, obsLe x y) :
    (x :: xs).filter (fun y => y.paragraph == p && y.severity == s) = [] := by
  rw [List.filter_eq_nil_iff]
  intro y hy
  simp only [Bool.and_eq_true, beq_iff_eq] at hfo
  rw [Bool.not_eq_true]
  by_contra hfy
  rw [Bool.not_eq_false] at hfy
  simp only [Bool.and_eq_true, beq_iff_eq] at hfy
  have hoy : obsBefore o y := by
    rcases List.mem_cons.mp hy with rfl | hy'
    · exact hb
    · exact obsBefore_of_before_le _ _ _ hb (h1 y hy')
  unfold obsBefore at hoy
  omega

theorem insertObs_filter (o : Observation) (l : List Observation) (p s : Int)
    (hs : l.Pairwise obsLe) :
    (insertObs o l).filter (fun y => y.paragraph == p && y.severity == s) =
      if (o.paragraph == p && o.severity == s) = true then
        l.filter (fun y => y.paragraph == p && y.severity == s) ++ [o]
      else
        l.filter (fun y => y.paragraph == p && y.severity == s) := by
  induction l with
  | nil =>
    rcases hfo : (o.paragraph == p && o.severity == s) with _ | _ <;>
      simp [insertObs, List.filter, hfo]
  | cons x xs ih =>
    rw [List.pairwise_cons] at hs
    obtain ⟨h1, h2⟩ := hs
    unfold insertObs
    by_cases hb : obsBefore o x
    · rw [if_pos hb]
      rcases hfo : (o.paragraph == p && o.severity == s) with _ | _
      · simp [List.filter_cons, hfo]
      · rw [if_pos rfl]
        have hnil := filter_key_eq_nil_of_before o x xs p s hfo hb h1
        rw [List.filter_cons, hfo]
        simp only [if_pos rfl]
        rw [hnil]
        simp
    · rw [if_neg hb]
      rw [List.filter_cons]
      rcases hfx : (x.paragraph == p && x.severity == s) with _ | _
      · rw [if_neg (by decide : ¬ (false = true))]
        rw [ih h2]
        rcases hfo : (o.paragraph == p && o.severity == s) with _ | _ <;>
          simp [List.filter_cons, hfx, hfo]
      · simp only [if_pos rfl]
        rw [ih h2]
        rcases hfo : (o.paragraph == p && o.severity == s) with _ | _ <;>
          simp [List.filter_cons, hfx, hfo]

theorem sortLoop_invariant (l : List Observation) : ∀ acc : List Observation,
    acc.Pairwise obsLe →
    (List.foldl (fun acc o => insertObs o acc) acc l).Pairwise obsLe ∧
    List.Perm (List.foldl (fun acc o => insertObs o acc) acc l) (acc ++ l) ∧
    ∀ p s : Int,
      (List.foldl (fun acc o => insertObs o acc) acc l).filter
          (fun y => y.paragraph == p && y.severity == s) =
        acc.filter (fun y => y.paragraph == p && y.severity == s) ++
          l.filter (fun y => y.paragraph == p && y.severity == s) := by
  induction l with
  | nil =>
    intro acc hacc
    refine ⟨hacc, ?_, ?_⟩
    · simp
    · intro p s
      simp
  | cons o t ih =>
    intro acc hacc
    rw [List.foldl_cons]
    obtain ⟨ih1, ih2, ih3⟩ := ih (insertObs o acc) (pairwise_insertObs o acc hacc)
    refine ⟨ih1, ?_, ?_⟩
    · refine ih2.trans ?_
      refine (List.Perm.append_right t (insertObs_perm o acc)).trans ?_
      rw [List.cons_append]
      exact List.perm_middle.symm
    · intro p s
      rw [ih3 p s, insertObs_filter o acc p s hacc]
      rcases hfo : (o.paragraph == p && o.severity == s) with _ | _
      · simp [List.filter_cons, hfo]
      · simp [List.filter_cons, hfo]

/-- **C6.** `sortedObservations` is a permutation of the input ordered by
ascending paragraph index and, within equal paragraph indices, by
descending severity, and ties between equal `(paragraph, severity)` pairs
preserve the input order (the sublist at each key is unchanged).  The
input list itself is untouched: the model is purely functional, mirroring
the `[...observations]` copy the source sorts. -/
theorem C6_sortedObservations_spec (observations : List Observation) :
    List.Perm (sortedObservations observations) observations ∧
    (sortedObservations observations).Pairwise obsLe ∧
    ∀ p s : Int,
      (sortedObservations observations).filter
          (fun o => o.paragraph == p && o.severity == s) =
        observations.filter (fun o => o.paragraph == p && o.severity == s) := by
  obtain ⟨h1, h2, h3⟩ := sortLoop_invariant observations [] List.Pairwise.nil
  refine ⟨by simpa using h2, h1, ?_⟩
  intro p s
  simpa using h3 p s

theorem jsSlice_snoc (full : Str) (st pos : Nat) (c : Char)
    (hget : full[pos]? = some c) (hle : st ≤ pos) :
    jsSlice full st (pos + 1) = jsSlice full st pos ++ [c] := by
  unfold jsSlice
  have h1 : pos + 1 - st = (pos - st) + 1 := by omega
  rw [h1, List.take_succ]
  congr 1
  rw [List.getElem?_drop]
  have h2 : st + (pos - st) = pos := by omega
  rw [h2, hget]
  rfl

theorem jsSlice_prefix (full : Str) (st pos : Nat) (x y : Str)
    (h : jsSlice full st pos = x ++ y) (hlen : st + x.length ≤ pos) :
    jsSlice full st (st + x.length) = x := by
  unfold jsSlice at h ⊢
  have h2 : st + x.length - st = x.length := by omega
  rw [h2]
  have h3 : (full.drop st).take x.length = ((full.drop st).take (pos - st)).take x.length := by
    rw [List.take_take, min_eq_left (by omega)]
  rw [h3, h, List.take_left]

theorem pageScan_slices (full : Str) (s : Str) : ∀ (pos : Nat)
    (state : Option (Str × Nat × Bool)),
    s = full.drop pos →
    (∀ cur st pend, state = some (cur, st, pend) →
      st + cur.length + (if pend then 1 else 0) = pos ∧
      jsSlice full st pos = cur.reverse ++ (if pend then ['\n'] else [])) →
    ∀ mp ∈ pageScan s pos state,
      jsSlice full mp.2 (mp.2 + mp.1.length) = mp.1 := by
  induction s with
  | nil =>
    intro pos state hs hstate mp hmp
    rcases state with _ | ⟨cur, st, pend⟩
    · simp [pageScan] at hmp
    · simp only [pageScan, List.mem_singleton] at hmp
      subst hmp
      obtain ⟨h1, h2⟩ := hstate cur st pend rfl
      cases pend with
      | false =>
        simp only [Bool.false_eq_true, if_false, List.append_nil] at h1 h2
        show jsSlice full st (st + cur.reverse.length) = cur.reverse
        rw [List.length_reverse]
        have h3 : st + cur.length = pos := by omega
        rw [h3, h2]
      | true =>
        simp only [if_true] at h1 h2
        show jsSlice full st (st + ('\n' :: cur).reverse.length) = ('\n' :: cur).reverse
        have h3 : st + ('\n' :: cur).reverse.length = pos := by
          simp only [List.reverse_cons, List.length_append, List.length_reverse,
            List.length_singleton]
          omega
        rw [h3, h2, List.reverse_cons]
  | cons c rest ih =>
    intro pos state hs hstate mp hmp
    have hdrop : rest = full.drop (pos + 1) := by
      have h0 : full.drop (pos + 1) = (full.drop pos).drop 1 := by
        rw [List.drop_drop]
      rw [h0, ← hs]
      rfl
    have hget : full[pos]? = some c := by
      have h0 : (full.drop pos)[0]? = some c := by
        rw [← hs]
        simp
      rw [List.getElem?_drop] at h0
      simpa using h0
    rcases state with _ | ⟨cur, st, pend⟩
    · simp only [pageScan] at hmp
      by_cases hc : c = '\n'
      · rw [if_pos hc] at hmp
        exact ih (pos + 1) none hdrop (fun _ _ _ h => nomatch h) mp hmp
      · rw [if_neg hc] at hmp
        refine ih (pos + 1) (some ([c], pos, false)) hdrop ?_ mp hmp
        intro cur' st' pend' heq
        cases heq
        refine ⟨by simp, ?_⟩
        have hsl : jsSlice full pos (pos + 1) = [c] := by
          unfold jsSlice
          rw [Nat.add_sub_cancel_left, ← hs]
          rfl
        simpa using hsl
    · obtain ⟨h1, h2⟩ := hstate cur st pend rfl
      have hle : st ≤ pos := by
        cases pend <;> simp at h1 <;> omega
      simp only [pageScan] at hmp
      by_cases hc : c = '\n'
      · rw [if_pos hc] at hmp
        cases pend with
        | true =>
          rw [if_pos rfl] at hmp
          simp only [if_true] at h1 h2
          rcases List.mem_cons.mp hmp with heq | hmem
          · subst heq
            show jsSlice full st (st + cur.reverse.length) = cur.reverse
            exact jsSlice_prefix full st pos cur.reverse ['\n'] h2
              (by rw [List.length_reverse]; omega)
          · exact ih (pos + 1) none hdrop (fun _ _ _ h => nomatch h) mp hmem
        | false =>
          rw [if_neg (by decide : ¬ (false = true))] at hmp
          simp only [Bool.false_eq_true, if_false, List.append_nil] at h1 h2
          refine ih (pos + 1) (some (cur, st, true)) hdrop ?_ mp hmp
          intro cur' st' pend' heq
          cases heq
          refine ⟨?_, ?_⟩
          · simp only [if_true]
            omega
          · simp only [if_true]
            rw [jsSlice_snoc full st pos c hget hle, h2, hc]
      · rw [if_neg hc] at hmp
        cases pend with
        | true =>
          rw [if_pos rfl] at hmp
          simp only [if_true] at h1 h2
          refine ih (pos + 1) (some (c :: '\n' :: cur, st, false)) hdrop ?_ mp hmp
          intro cur' st' pend' heq
          cases heq
          refine ⟨?_, ?_⟩
          · simp only [Bool.false_eq_true, if_false, List.length_cons]
            omega
          · simp only [Bool.false_eq_true, if_false, List.append_nil]
            rw [jsSlice_snoc full st pos c hget hle, h2]
            simp
        | false =>
          rw [if_neg (by decide : ¬ (false = true))] at hmp
          simp only [Bool.false_eq_true, if_false, List.append_nil] at h1 h2
          refine ih (pos + 1) (some (c :: cur, st, false)) hdrop ?_ mp hmp
          intro cur' st' pend' heq
          cases heq
          refine ⟨?_, ?_⟩
          · simp only [Bool.false_eq_true, if_false, List.length_cons]
            omega
          · simp only [Bool.false_eq_true, if_false, List.append_nil]
            rw [jsSlice_snoc full st pos c hget hle, h2, List.reverse_cons]

theorem mem_of_enumFrom {α : Type} (x : Nat × α) : ∀ (n : Nat) (l : List α),
    x ∈ l.enumFrom n → x.2 ∈ l := by
  intro n l
  induction l generalizing n with
  | nil => intro h; simp at h
  | cons y ys ih =>
    intro h
    rw [List.enumFrom_cons] at h
    rcases List.mem_cons.mp h with heq | hmem
    · rw [heq]
      simp
    · exact List.mem_cons_of_mem y (ih (n + 1) hmem)

theorem enumFrom_map_fst {α : Type} (l : List α) : ∀ (n : Nat),
    (l.enumFrom n).map Prod.fst = List.range' n l.length := by
  induction l with
  | nil => intro n; rfl
  | cons y ys ih =>
    intro n
    rw [List.enumFrom_cons, List.map_cons, ih (n + 1)]
    rfl

/-- **C3.** Every record produced by the offset-tracking
`splitIntoParagraphs` of EditorPage.tsx indexes the original document
exactly (`text.slice(start, end) = content` and
`end = start + content.length`), whitespace-only matches are dropped (all
surviving contents have a truthy `trim()`), and the ids `p0, p1, ...`
(here the numeric `idx`) are assigned consecutively from 0 in document
order. -/
theorem C3_splitIntoParagraphsPage_offsets (text : Str) :
    (∀ r ∈ splitIntoParagraphsPage text,
      jsSlice text r.start r.stop = r.content ∧
      r.stop = r.start + r.content.length ∧
      jsTrim r.content ≠ []) ∧
    (splitIntoParagraphsPage text).map PageParagraph.idx =
      List.range (splitIntoParagraphsPage text).length := by
  constructor
  · intro r hr
    unfold splitIntoParagraphsPage at hr
    rw [List.mem_map] at hr
    obtain ⟨e, he, rfl⟩ := hr
    have hmem2 : e.2 ∈ (pageScan text 0 none).filter (fun m => jsTrim m.1 ≠ []) :=
      mem_of_enumFrom e 0 _ he
    rw [List.mem_filter] at hmem2
    obtain ⟨hscan, htrim⟩ := hmem2
    refine ⟨?_, rfl, ?_⟩
    · exact pageScan_slices text text 0 none (by simp) (fun _ _ _ h => nomatch h) e.2 hscan
    · exact of_decide_eq_true htrim
  · unfold splitIntoParagraphsPage
    rw [List.map_map, List.length_map]
    have hcomp : (PageParagraph.idx ∘ fun e : Nat × (Str × Nat) =>
        (⟨e.1, e.2.1, e.2.2, e.2.2 + e.2.1.length⟩ : PageParagraph)) = Prod.fst := rfl
    rw [hcomp]
    rw [List.enum_length, List.range_eq_range']
    exact enumFrom_map_fst _ 0

theorem C3_splitIntoParagraphsPage_offsets_witness :
    jsSlice ['a', '\n', '\n', 'b'] 3 4 = ['b'] ∧
    (4 : Nat) = 3 + (['b'] : Str).length ∧
    jsTrim ['b'] ≠ [] :=
  (C3_splitIntoParagraphsPage_offsets ['a', '\n', '\n', 'b']).1
    ⟨1, ['b'], 3, 4⟩ (by decide)

theorem jsTrim_eq_nil_iff (p : Str) : jsTrim p = [] ↔ p.all jsIsWs = true := by
  unfold jsTrim
  rw [List.reverse_eq_nil_iff, List.dropWhile_eq_nil_iff]
  constructor
  · intro h
    rw [List.all_eq_true]
    intro x hx
    by_cases hws : jsIsWs x = true
    · exact hws
    · exfalso
      have hx2 : x ∈ p.dropWhile jsIsWs := by
        have hsplit := List.takeWhile_append_dropWhile (p := jsIsWs) (l := p)
        rw [← hsplit] at hx
        rcases List.mem_append.mp hx with h1 | h2
        · exact absurd (List.mem_takeWhile_imp h1) hws
        · exact h2
      have := h x (List.mem_reverse.mpr hx2)
      exact hws this
  · intro h x hx
    rw [List.all_eq_true] at h
    have hx2 : x ∈ p.dropWhile jsIsWs := List.mem_reverse.mp hx
    have hx3 : x ∈ p := by
      have hsplit := List.takeWhile_append_dropWhile (p := jsIsWs) (l := p)
      rw [← hsplit]
      exact List.mem_append.mpr (Or.inr hx2)
    exact h x hx3

theorem splitOnBlank_eq (s acc : Str) : splitOnBlank s acc =
    match sepMatchAt s with
    | some n => acc.reverse :: splitOnBlank (s.drop n) []
    | none =>
      match s with
      | [] => [acc.reverse]
      | c :: t => splitOnBlank t (c :: acc) := by
  rw [splitOnBlank]
  split <;> try simp_all
  rename_i heq
  cases s with
  | nil => rfl
  | cons c t => rfl

theorem splitOnBlank_sep (s acc : Str) (n : Nat) (h : sepMatchAt s = some n) :
    splitOnBlank s acc = acc.reverse :: splitOnBlank (s.drop n) [] := by
  rw [splitOnBlank_eq, h]

theorem splitOnBlank_nil (acc : Str) : splitOnBlank [] acc = [acc.reverse] := by
  rw [splitOnBlank_eq]
  rfl

theorem splitOnBlank_none (c : Char) (t acc : Str) (h : sepMatchAt (c :: t) = none) :
    splitOnBlank (c :: t) acc = splitOnBlank t (c :: acc) := by
  rw [splitOnBlank_eq, h]

theorem sepMatchAt_cons (c : Char) (t : Str) :
    sepMatchAt (c :: t) = if c = '\n' then (findLastNl t).map (· + 2) else none := rfl

theorem sepMatchAt_cons_ne (c : Char) (t : Str) (h : ¬ c = '\n') :
    sepMatchAt (c :: t) = none := by
  rw [sepMatchAt_cons, if_neg h]

theorem findLastNl_cons (c : Char) (t : Str) :
    findLastNl (c :: t) =
      if jsIsWs c then
        match findLastNl t with
        | some j => some (j + 1)
        | none => if c = '\n' then some 0 else none
      else none := rfl

theorem findLastNl_none_append (w : Str) : ∀ (u : Str),
    w.all jsIsWs = true → w.count '\n' = 0 →
    (∀ d, u.head? = some d → jsIsWs d = false) →
    findLastNl (w ++ u) = none := by
  induction w with
  | nil =>
    intro u _ _ hu
    cases u with
    | nil => rfl
    | cons d u' =>
      rw [List.nil_append, findLastNl_cons, if_neg]
      rw [hu d rfl]
      simp
  | cons c w' ih =>
    intro u hws hcount hu
    rw [List.all_cons, Bool.and_eq_true] at hws
    have hc : ¬ c = '\n' := by
      intro hceq
      rw [List.count_cons] at hcount
      simp [hceq] at hcount
    have hc' : ¬ '\n' = c := fun h => hc h.symm
    have hcnt' : w'.count '\n' = 0 := by
      rw [List.count_cons] at hcount
      simp [hc, hc'] at hcount
      exact hcount
    rw [List.cons_append, findLastNl_cons, if_pos hws.1,
      ih u hws.2 hcnt' hu, if_neg hc]

theorem findLastNl_greedy (mid : Str) : ∀ (g2 u : Str),
    mid.all jsIsWs = true → g2.all jsIsWs = true → g2.count '\n' = 0 →
    (∀ d, u.head? = some d → jsIsWs d = false) →
    findLastNl (mid ++ '\n' :: (g2 ++ u)) = some mid.length := by
  induction mid with
  | nil =>
    intro g2 u _ hg2 hcnt hu
    rw [List.nil_append, findLastNl_cons, if_pos (by decide),
      findLastNl_none_append g2 u hg2 hcnt hu]
    rfl
  | cons c mid' ih =>
    intro g2 u hws hg2 hcnt hu
    rw [List.all_cons, Bool.and_eq_true] at hws
    rw [List.cons_append, findLastNl_cons, if_pos hws.1,
      ih g2 u hws.2 hg2 hcnt hu]
    rfl

theorem findLastNl_decomp (s : Str) : ∀ (j : Nat), findLastNl s = some j →
    ∃ w rest, s = w ++ '\n' :: rest ∧ w.length = j ∧ w.all jsIsWs = true := by
  induction s with
  | nil => intro j h; cases h
  | cons c t ih =>
    intro j h
    rw [findLastNl_cons] at h
    by_cases hws : jsIsWs c = true
    · rw [if_pos hws] at h
      rcases hft : findLastNl t with _ | j'
      · rw [hft] at h
        by_cases hc : c = '\n'
        · rw [if_pos hc] at h
          cases h
          exact ⟨[], t, by simp [hc], rfl, rfl⟩
        · rw [if_neg hc] at h
          cases h
      · rw [hft] at h
        cases h
        obtain ⟨w, rest, rfl, rfl, hall⟩ := ih j' hft
        exact ⟨c :: w, rest, rfl, rfl, by rw [List.all_cons, hws, hall]; rfl⟩
    · rw [if_neg hws] at h
      cases h

theorem sepMatchAt_decomp (s : Str) (n : Nat) (h : sepMatchAt s = some n) :
    ∃ w rest, s = '\n' :: (w ++ '\n' :: rest) ∧ n = w.length + 2 ∧
      w.all jsIsWs = true := by
  cases s with
  | nil => cases h
  | cons c t =>
    rw [sepMatchAt_cons] at h
    by_cases hc : c = '\n'
    · rw [if_pos hc] at h
      rcases hft : findLastNl t with _ | j
      · rw [hft] at h
        cases h
      · rw [hft] at h
        simp only [Option.map_some', Option.some.injEq] at h
        obtain ⟨w, rest, rfl, rfl, hall⟩ := findLastNl_decomp t j hft
        exact ⟨w, rest, by rw [hc], by omega, hall⟩
    · rw [if_neg hc] at h
      cases h

theorem splitOnBlank_absorb : ∀ (r u acc : Str),
    (∀ a c b, r = a ++ c :: b → sepMatchAt (c :: (b ++ u)) = none) →
    splitOnBlank (r ++ u) acc = splitOnBlank u (r.reverse ++ acc) := by
  intro r
  induction r with
  | nil =>
    intro u acc _
    simp
  | cons c t ih =>
    intro u acc hcond
    have h0 : sepMatchAt (c :: (t ++ u)) = none := hcond [] c t rfl
    rw [List.cons_append, splitOnBlank_none c (t ++ u) acc h0,
      ih u (c :: acc) (fun a d b hab => hcond (c :: a) d b (by rw [hab]; rfl))]
    simp

theorem sepMatchAt_none_of_no_nl (r u : Str) (hcnt : r.count '\n' = 0) :
    ∀ a c b, r = a ++ c :: b → sepMatchAt (c :: (b ++ u)) = none := by
  intro a c b hab
  have hc : ¬ c = '\n' := by
    intro hceq
    have : '\n' ∈ r := by
      rw [hab, hceq]
      exact List.mem_append.mpr (Or.inr (List.mem_cons_self _ _))
    rw [← List.count_pos_iff] at this
    omega
  exact sepMatchAt_cons_ne c _ hc

theorem splitOnBlank_absorb_no_nl (r u acc : Str) (hcnt : r.count '\n' = 0) :
    splitOnBlank (r ++ u) acc = splitOnBlank u (r.reverse ++ acc) :=
  splitOnBlank_absorb r u acc (sepMatchAt_none_of_no_nl r u hcnt)

theorem splitOnBlank_absorb_ws_le1 (g u acc : Str) (hws : g.all jsIsWs = true)
    (hcnt : g.count '\n' ≤ 1) (hu : ∀ d, u.head? = some d → jsIsWs d = false) :
    splitOnBlank (g ++ u) acc = splitOnBlank u (g.reverse ++ acc) := by
  refine splitOnBlank_absorb g u acc ?_
  intro a c b hab
  by_cases hc : c = '\n'
  · subst hc
    rw [sepMatchAt_cons, if_pos rfl]
    have hbws : b.all jsIsWs = true := by
      rw [List.all_eq_true] at hws ⊢
      intro x hx
      refine hws x ?_
      rw [hab]
      exact List.mem_append.mpr (Or.inr (List.mem_cons_of_mem _ hx))
    have hbcnt : b.count '\n' = 0 := by
      have hsum : g.count '\n' = a.count '\n' + ('\n' :: b).count '\n' := by
        rw [hab, List.count_append]
      have hcons : ('\n' :: b).count '\n' = b.count '\n' + 1 := by
        rw [List.count_cons]
        simp
      omega
    rw [findLastNl_none_append b u hbws hbcnt hu]
    rfl
  · exact sepMatchAt_cons_ne c _ hc

theorem splitOnBlank_cons_exists : ∀ (N : Nat) (s : Str), s.length ≤ N → ∀ acc,
    ∃ p ps, splitOnBlank s [] = p :: ps ∧
      splitOnBlank s acc = (acc.reverse ++ p) :: ps := by
  intro N
  induction N with
  | zero =>
    intro s hs acc
    have hnil : s = [] := List.length_eq_zero.mp (Nat.le_zero.mp hs)
    subst hnil
    refine ⟨[], [], ?_, ?_⟩
    · rw [splitOnBlank_nil]
      rfl
    · rw [splitOnBlank_nil]
      simp
  | succ N ih =>
    intro s hs acc
    rcases hsep : sepMatchAt s with _ | n
    · cases s with
      | nil =>
        refine ⟨[], [], ?_, ?_⟩
        · rw [splitOnBlank_nil]
          rfl
        · rw [splitOnBlank_nil]
          simp
      | cons c t =>
        have hlt : t.length ≤ N := by
          simp only [List.length_cons] at hs
          omega
        rw [splitOnBlank_none c t [] hsep, splitOnBlank_none c t acc hsep]
        obtain ⟨p, ps, h1, h2⟩ := ih t hlt [c]
        obtain ⟨p', ps', h1', h2'⟩ := ih t hlt (c :: acc)
        rw [h1] at h1'
        cases h1'
        refine ⟨c :: p, ps, ?_, ?_⟩
        · rw [h2]
          simp
        · rw [h2']
          simp
    · rw [splitOnBlank_sep s [] n hsep, splitOnBlank_sep s acc n hsep]
      exact ⟨[], splitOnBlank (s.drop n) [], by simp, by simp⟩

theorem splitOnBlank_allWs : ∀ (N : Nat) (s : Str), s.length ≤ N →
    s.all jsIsWs = true → ∀ acc, acc.all jsIsWs = true →
    ∀ p ∈ splitOnBlank s acc, p.all jsIsWs = true := by
  intro N
  induction N with
  | zero =>
    intro s hs _ acc hacc p hp
    have hnil : s = [] := List.length_eq_zero.mp (Nat.le_zero.mp hs)
    subst hnil
    rw [splitOnBlank_nil, List.mem_singleton] at hp
    subst hp
    rw [List.all_reverse]
    exact hacc
  | succ N ih =>
    intro s hs hws acc hacc p hp
    rcases hsep : sepMatchAt s with _ | n
    · cases s with
      | nil =>
        rw [splitOnBlank_nil, List.mem_singleton] at hp
        subst hp
        rw [List.all_reverse]
        exact hacc
      | cons c t =>
        rw [List.all_cons, Bool.and_eq_true] at hws
        rw [splitOnBlank_none c t acc hsep] at hp
        refine ih t (by simp only [List.length_cons] at hs; omega) hws.2 (c :: acc) ?_ p hp
        rw [List.all_cons, hws.1, hacc]
        rfl
    · obtain ⟨w, rest, hdec, hn, _⟩ := sepMatchAt_decomp s n hsep
      rw [splitOnBlank_sep s acc n hsep] at hp
      rcases List.mem_cons.mp hp with heq | hmem
      · subst heq
        rw [List.all_reverse]
        exact hacc
      · have hslen : s.length = w.length + rest.length + 2 := by
          rw [hdec]
          simp
          omega
        have hdws : (s.drop n).all jsIsWs = true := by
          rw [List.all_eq_true] at hws ⊢
          intro x hx
          exact hws x (List.drop_subset n s hx)
        refine ih (s.drop n) ?_ hdws [] rfl p hmem
        rw [List.length_drop]
        omega

theorem exists_first_nl (w : Str) (h : '\n' ∈ w) :
    ∃ a b, w = a ++ '\n' :: b ∧ a.count '\n' = 0 := by
  induction w with
  | nil => cases h
  | cons c t ih =>
    by_cases hc : c = '\n'
    · exact ⟨[], t, by rw [hc]; rfl, rfl⟩
    · have ht : '\n' ∈ t := by
        rcases List.mem_cons.mp h with heq | hmem
        · exact absurd heq.symm hc
        · exact hmem
      obtain ⟨a, b, rfl, hcnt⟩ := ih ht
      refine ⟨c :: a, b, rfl, ?_⟩
      rw [List.count_cons]
      have hc' : ¬ ('\n' : Char) = c := fun hx => hc hx.symm
      simp [hc, hc']
      omega

theorem exists_last_nl (w : Str) (h : '\n' ∈ w) :
    ∃ a b, w = a ++ '\n' :: b ∧ b.count '\n' = 0 := by
  induction w with
  | nil => cases h
  | cons c t ih =>
    by_cases ht : '\n' ∈ t
    · obtain ⟨a, b, rfl, hcnt⟩ := ih ht
      exact ⟨c :: a, b, rfl, hcnt⟩
    · have hc : c = '\n' := by
        rcases List.mem_cons.mp h with heq | hmem
        · exact heq.symm
        · exact absurd hmem ht
      refine ⟨[], t, by rw [hc]; rfl, ?_⟩
      rw [← List.count_pos_iff] at ht
      omega

theorem exists_replicate_nl_prefix (s : Str) :
    ∃ k b, s = List.replicate k '\n' ++ b ∧ b.head? ≠ some '\n' := by
  induction s with
  | nil => exact ⟨0, [], rfl, by simp⟩
  | cons c t ih =>
    by_cases hc : c = '\n'
    · obtain ⟨k, b, rfl, hb⟩ := ih
      subst hc
      exact ⟨k + 1, b, by rw [List.replicate_succ]; rfl, hb⟩
    · exact ⟨0, c :: t, rfl, by simpa using hc⟩

theorem gapsCounter_nil (seen : Bool) (nl : Nat) : gapsCounter [] seen nl = 0 := rfl

theorem gapsCounter_cons (c : Char) (t : Str) (seen : Bool) (nl : Nat) :
    gapsCounter (c :: t) seen nl =
      if jsIsWs c = true then gapsCounter t seen (if c = '\n' then nl + 1 else nl)
      else (if seen = true ∧ 2 ≤ nl then 1 else 0) + gapsCounter t true 0 := rfl

theorem gapsCounter_false_irrel (s : Str) : ∀ nl nl',
    gapsCounter s false nl = gapsCounter s false nl' := by
  induction s with
  | nil => intro _ _; rfl
  | cons c t ih =>
    intro nl nl'
    rw [gapsCounter_cons, gapsCounter_cons]
    by_cases hws : jsIsWs c = true
    · rw [if_pos hws, if_pos hws]
      exact ih _ _
    · rw [if_neg hws, if_neg hws]
      simp

theorem gapsCounter_ws_prefix (w : Str) (hws : w.all jsIsWs = true) : ∀ (y : Str) (nl : Nat),
    gapsCounter (w ++ y) false nl = gapsCounter y false 0 := by
  induction w with
  | nil =>
    intro y nl
    rw [List.nil_append]
    exact gapsCounter_false_irrel y nl 0
  | cons c t ih =>
    intro y nl
    rw [List.all_cons, Bool.and_eq_true] at hws
    rw [List.cons_append, gapsCounter_cons, if_pos hws.1]
    exact ih hws.2 y _

theorem gapsCounter_allWs_zero (w : Str) (hws : w.all jsIsWs = true) : ∀ seen nl,
    gapsCounter w seen nl = 0 := by
  induction w with
  | nil => intro _ _; rfl
  | cons c t ih =>
    intro seen nl
    rw [List.all_cons, Bool.and_eq_true] at hws
    rw [gapsCounter_cons, if_pos hws.1]
    exact ih hws.2 seen _

theorem gapsCounter_ws_append (w : Str) (hws : w.all jsIsWs = true) : ∀ (y : Str) seen nl,
    gapsCounter (w ++ y) seen nl = gapsCounter y seen (nl + w.count '\n') := by
  induction w with
  | nil => intro y seen nl; simp
  | cons c t ih =>
    intro y seen nl
    rw [List.all_cons, Bool.and_eq_true] at hws
    rw [List.cons_append, gapsCounter_cons, if_pos hws.1, ih hws.2 y seen _]
    congr 1
    rw [List.count_cons]
    by_cases hc : c = '\n'
    · simp [hc]
      omega
    · have hc' : ¬ ('\n' : Char) = c := fun hx => hc hx.symm
      simp [hc, hc']

theorem gapsCounter_nonws_run (r : Str) : r.all (fun c => !(jsIsWs c)) = true → r ≠ [] →
    ∀ (y : Str) seen nl, gapsCounter (r ++ y) seen nl =
      (if seen = true ∧ 2 ≤ nl then 1 else 0) + gapsCounter y true 0 := by
  induction r with
  | nil => intro _ hne; exact absurd rfl hne
  | cons c t ih =>
    intro hall _ y seen nl
    rw [List.all_cons, Bool.and_eq_true] at hall
    have hcws : ¬ jsIsWs c = true := by
      rcases hall with ⟨h1, _⟩
      simp only [Bool.not_eq_true'] at h1
      simp [h1]
    rw [List.cons_append, gapsCounter_cons, if_neg hcws]
    cases t with
    | nil => rfl
    | cons d t' =>
      rw [ih hall.2 (by simp) y true 0]
      simp

theorem gapsCounter_ws_suffix (post : Str) (hws : post.all jsIsWs = true) :
    ∀ (s : Str) seen nl, gapsCounter (s ++ post) seen nl = gapsCounter s seen nl := by
  intro s
  induction s with
  | nil =>
    intro seen nl
    rw [List.nil_append, gapsCounter_allWs_zero post hws]
    rfl
  | cons c t ih =>
    intro seen nl
    rw [List.cons_append, gapsCounter_cons, gapsCounter_cons]
    by_cases hc : jsIsWs c = true
    · rw [if_pos hc, if_pos hc, ih]
    · rw [if_neg hc, if_neg hc, ih]

theorem any_nonws_of_allWs (w : Str) (hws : w.all jsIsWs = true) :
    w.any (fun c => !(jsIsWs c)) = false := by
  rw [List.any_eq_false]
  intro x hx
  rw [List.all_eq_true] at hws
  simp [hws x hx]

theorem dropWhile_head_false (p : Char → Bool) : ∀ (l : List Char) (x : Char) (xs : List Char),
    l.dropWhile p = x :: xs → p x = false := by
  intro l
  induction l with
  | nil => intro x xs h; cases h
  | cons c t ih =>
    intro x xs h
    by_cases hc : p c = true
    · rw [List.dropWhile_cons_of_pos hc] at h
      exact ih x xs h
    · rw [List.dropWhile_cons_of_neg hc] at h
      cases h
      exact Bool.not_eq_true _ |>.mp hc

theorem takeWhile_all (p : Char → Bool) (l : List Char) :
    (l.takeWhile p).all p = true := by
  rw [List.all_eq_true]
  intro x hx
  exact List.mem_takeWhile_imp hx

theorem jsTrim_ne_nil_of_mem (x : Char) (p : Str) (hx : x ∈ p)
    (hws : jsIsWs x = false) : jsTrim p ≠ [] := by
  intro h
  rw [jsTrim_eq_nil_iff, List.all_eq_true] at h
  rw [h x hx] at hws
  cases hws

theorem filter_ws_nil (ps : List Str) (h : ∀ p ∈ ps, p.all jsIsWs = true) :
    ps.filter (fun p => jsTrim p ≠ []) = [] := by
  rw [List.filter_eq_nil_iff]
  intro p hp
  have := h p hp
  rw [← jsTrim_eq_nil_iff] at this
  simp [this]

theorem filterLen_cons (f : Str → Bool) (x : Str) (xs : List Str) :
    ((x :: xs).filter f).length = (if f x = true then 1 else 0) + (xs.filter f).length := by
  rw [List.filter_cons]
  by_cases h : f x = true
  · rw [if_pos h, if_pos h, List.length_cons]
    omega
  · rw [if_neg h, if_neg h]
    omega

theorem editor_count_characterization : ∀ (N : Nat) (s : Str), s.length ≤ N →
    ((splitOnBlank s []).filter (fun p => jsTrim p ≠ [])).length =
      (if s.any (fun c => !(jsIsWs c)) = true then gapsCounter s false 0 + 1 else 0) := by
  intro N
  induction N with
  | zero =>
    intro s hs
    have hnil : s = [] := List.length_eq_zero.mp (Nat.le_zero.mp hs)
    subst hnil
    rw [splitOnBlank_nil]
    simp [jsTrim]
  | succ N ih =>
    intro s hs
    rcases hsep : sepMatchAt s with _ | n
    · cases s with
      | nil =>
        rw [splitOnBlank_nil]
        simp [jsTrim]
      | cons c t =>
        have htlen : t.length ≤ N := by
          simp only [List.length_cons] at hs
          omega
        by_cases hws : jsIsWs c = true
        · -- whitespace head: peel one character
          rw [splitOnBlank_none c t [] hsep]
          obtain ⟨p, ps, h1, h2⟩ := splitOnBlank_cons_exists N t htlen [c]
          rw [h2]
          have hpred : (decide (jsTrim (([c] : Str).reverse ++ p) ≠ []) = true) ↔
              (decide (jsTrim p ≠ []) = true) := by
            simp only [decide_eq_true_eq]
            rw [not_iff_not, jsTrim_eq_nil_iff, jsTrim_eq_nil_iff]
            simp [hws]
          rw [filterLen_cons]
          have hlhs : ((splitOnBlank t []).filter (fun p => jsTrim p ≠ [])).length =
              (if decide (jsTrim p ≠ []) = true then 1 else 0) +
                ((ps.filter (fun p => jsTrim p ≠ [])).length) := by
            rw [h1, filterLen_cons]
          have hih := ih t htlen
          rw [hlhs] at hih
          by_cases hp : decide (jsTrim p ≠ []) = true
          · rw [if_pos (hpred.mpr hp)]
            rw [if_pos hp] at hih
            rw [hih]
            have hany : ((c :: t).any (fun c => !(jsIsWs c))) = (t.any (fun c => !(jsIsWs c))) := by
              simp [hws]
            rw [hany, gapsCounter_cons, if_pos hws]
            by_cases hta : (t.any fun c => !(jsIsWs c)) = true
            · rw [if_pos hta, if_pos hta,
                gapsCounter_false_irrel t 0 (if c = '\n' then 0 + 1 else 0)]
            · rw [if_neg hta, if_neg hta]
          · rw [if_neg fun hx => hp (hpred.mp hx)]
            rw [if_neg hp] at hih
            rw [hih]
            have hany : ((c :: t).any (fun c => !(jsIsWs c))) = (t.any (fun c => !(jsIsWs c))) := by
              simp [hws]
            rw [hany, gapsCounter_cons, if_pos hws]
            by_cases hta : (t.any fun c => !(jsIsWs c)) = true
            · rw [if_pos hta, if_pos hta,
                gapsCounter_false_irrel t 0 (if c = '\n' then 0 + 1 else 0)]
            · rw [if_neg hta, if_neg hta]
        · -- non-whitespace head: take the leading non-whitespace run
          set nw : Char → Bool := fun c => !(jsIsWs c) with hnw
          have hnwc : nw c = true := by simp [hnw, hws]
          have hsplitw := List.takeWhile_append_dropWhile (p := nw) (l := c :: t)
          set r1 : Str := (c :: t).takeWhile nw with hr1
          set rest0 : Str := (c :: t).dropWhile nw with hrest0
          have hr1eq : r1 = c :: t.takeWhile nw := by
            show List.takeWhile nw (c :: t) = c :: t.takeWhile nw
            rw [List.takeWhile_cons_of_pos hnwc]
          have hr1all : r1.all nw = true := takeWhile_all nw (c :: t)
          have hr1cnt : r1.count '\n' = 0 := by
            rw [List.count_eq_zero]
            intro hmem
            rw [List.all_eq_true] at hr1all
            have := hr1all '\n' hmem
            simp [hnw, jsIsWs] at this
          have habs : splitOnBlank (c :: t) [] = splitOnBlank rest0 r1.reverse := by
            conv_lhs => rw [← hsplitw]
            rw [splitOnBlank_absorb_no_nl r1 rest0 [] hr1cnt, List.append_nil]
          have hcr1 : c ∈ r1 := by
            rw [hr1eq]
            exact List.mem_cons_self _ _
          have hslen : (c :: t).length = r1.length + rest0.length := by
            conv_lhs => rw [← hsplitw]
            rw [List.length_append]
          have hr1pos : 1 ≤ r1.length := by
            rw [hr1eq]
            simp
          cases hrest : rest0 with
          | nil =>
            rw [habs, hrest, splitOnBlank_nil, List.reverse_reverse]
            have hpred : decide (jsTrim r1 ≠ []) = true :=
              decide_eq_true (jsTrim_ne_nil_of_mem c r1 hcr1 (by simpa using hws))
            rw [filterLen_cons, if_pos hpred]
            have hany : (c :: t).any nw = true := by
              rw [List.any_eq_true]
              exact ⟨c, List.mem_cons_self _ _, by simp [hnw, hws]⟩
            rw [hany]
            have hgc : gapsCounter (c :: t) false 0 = 0 := by
              conv_lhs => rw [← hsplitw]
              rw [hrest, List.append_nil]
              have := gapsCounter_nonws_run r1 hr1all (by
                intro hx
                rw [hx] at hr1pos
                simp at hr1pos) [] false 0
              rw [List.append_nil] at this
              rw [this]
              rw [gapsCounter_nil]
              simp
            rw [hgc]
            simp [List.filter]
          | cons w0 wrest =>
            have hw0ws : jsIsWs w0 = true := by
              have := dropWhile_head_false nw (c :: t) w0 wrest (by rw [← hrest0, hrest])
              simp [hnw] at this
              exact this
            -- split rest0 into its whitespace prefix and the remainder
            have hsplitg := List.takeWhile_append_dropWhile (p := jsIsWs) (l := rest0)
            set gap : Str := rest0.takeWhile jsIsWs with hgap
            set u : Str := rest0.dropWhile jsIsWs with hu
            have hgapall : gap.all jsIsWs = true := takeWhile_all jsIsWs rest0
            have hgappos : 1 ≤ gap.length := by
              show 1 ≤ (rest0.takeWhile jsIsWs).length
              rw [hrest, List.takeWhile_cons_of_pos hw0ws]
              simp
            have huhead : ∀ d, u.head? = some d → jsIsWs d = false := by
              intro d hd
              cases hucase : u with
              | nil => rw [hucase] at hd; cases hd
              | cons d0 u' =>
                rw [hucase] at hd
                have hdd : d0 = d := by simpa using hd
                rw [← hdd]
                exact dropWhile_head_false jsIsWs rest0 d0 u' (by rw [← hu, hucase])
            have hulen : u.length ≤ N := by
              have hre : rest0.length = gap.length + u.length := by
                conv_lhs => rw [← hsplitg]
                rw [List.length_append]
              have hslen2 : t.length + 1 = r1.length + rest0.length := by
                simpa using hslen
              simp only [List.length_cons] at hs
              omega
            cases hucase : u with
            | nil =>
              -- the rest of the document is pure whitespace
              have hrestws : rest0.all jsIsWs = true := by
                conv_lhs => rw [← hsplitg]
                rw [hucase, List.append_nil]
                exact hgapall
              obtain ⟨p, ps, h1, h2⟩ := splitOnBlank_cons_exists N rest0
                (by omega) r1.reverse
              rw [habs, h2, List.reverse_reverse]
              have hpsws : ∀ q ∈ p :: ps, q.all jsIsWs = true := by
                intro q hq
                rw [← h1] at hq
                exact splitOnBlank_allWs N rest0 (by omega) hrestws [] rfl q hq
              have hpred : decide (jsTrim (r1 ++ p) ≠ []) = true :=
                decide_eq_true (jsTrim_ne_nil_of_mem c (r1 ++ p)
                  (List.mem_append.mpr (Or.inl hcr1)) (by simpa using hws))
              rw [filterLen_cons, if_pos hpred,
                filter_ws_nil ps (fun q hq => hpsws q (List.mem_cons_of_mem _ hq))]
              have hany : (c :: t).any nw = true := by
                rw [List.any_eq_true]
                exact ⟨c, List.mem_cons_self _ _, by simp [hnw, hws]⟩
              rw [hany]
              have hgc : gapsCounter (c :: t) false 0 = 0 := by
                conv_lhs => rw [← hsplitw]
                rw [gapsCounter_nonws_run r1 hr1all (by
                  intro hx
                  rw [hx] at hr1pos
                  simp at hr1pos) rest0 false 0]
                rw [gapsCounter_allWs_zero rest0 hrestws]
                simp
              rw [hgc]
              simp
            | cons d u' =>
              have hdws : jsIsWs d = false := huhead d (by rw [hucase]; rfl)
              -- the first piece of splitOnBlank u [] starts with d
              have hdu : sepMatchAt (d :: u') = none :=
                sepMatchAt_cons_ne d u' (by
                  intro hx
                  rw [hx] at hdws
                  cases hdws)
              obtain ⟨q0, qs, hq1, hq2⟩ := splitOnBlank_cons_exists N u'
                (by rw [hucase] at hulen; simp only [List.length_cons] at hulen; omega) [d]
              have hqu : splitOnBlank u [] = (d :: q0) :: qs := by
                rw [hucase, splitOnBlank_none d u' [] hdu, hq2]
                simp
              have hqpred : decide (jsTrim (d :: q0) ≠ []) = true :=
                decide_eq_true (jsTrim_ne_nil_of_mem d (d :: q0)
                  (List.mem_cons_self _ _) hdws)
              have hany : (c :: t).any nw = true := by
                rw [List.any_eq_true]
                exact ⟨c, List.mem_cons_self _ _, by simp [hnw, hws]⟩
              have huany : u.any nw = true := by
                rw [List.any_eq_true]
                refine ⟨d, by rw [hucase]; exact List.mem_cons_self _ _, by simp [hnw, hdws]⟩
              have hihu := ih u hulen
              rw [hqu, filterLen_cons, if_pos hqpred, huany, if_pos rfl] at hihu
              have hgcu : gapsCounter u false 0 = gapsCounter u' true 0 := by
                rw [hucase, gapsCounter_cons, if_neg (by simp [hdws])]
                simp
              rw [hgcu] at hihu
              by_cases hge2 : 2 ≤ gap.count '\n'
              · -- a paragraph break: the separator consumes the gap newlines
                have hnlgap : '\n' ∈ gap := by
                  rw [← List.count_pos_iff]
                  omega
                obtain ⟨g1, mid2, hgap1, hg1cnt⟩ := exists_first_nl gap hnlgap
                have hnlmid2 : '\n' ∈ mid2 := by
                  rw [← List.count_pos_iff]
                  have : gap.count '\n' = g1.count '\n' + ('\n' :: mid2).count '\n' := by
                    rw [hgap1, List.count_append]
                  rw [List.count_cons] at this
                  simp at this
                  omega
                obtain ⟨mid, g2, hmid2, hg2cnt⟩ := exists_last_nl mid2 hnlmid2
                have hg1ws : g1.all jsIsWs = true := by
                  rw [List.all_eq_true] at hgapall ⊢
                  intro x hx
                  exact hgapall x (by rw [hgap1]; exact List.mem_append.mpr (Or.inl hx))
                have hmidws : mid.all jsIsWs = true := by
                  rw [List.all_eq_true] at hgapall ⊢
                  intro x hx
                  refine hgapall x ?_
                  rw [hgap1, hmid2]
                  exact List.mem_append.mpr (Or.inr (List.mem_cons_of_mem _
                    (List.mem_append.mpr (Or.inl hx))))
                have hg2ws : g2.all jsIsWs = true := by
                  rw [List.all_eq_true] at hgapall ⊢
                  intro x hx
                  refine hgapall x ?_
                  rw [hgap1, hmid2]
                  exact List.mem_append.mpr (Or.inr (List.mem_cons_of_mem _
                    (List.mem_append.mpr (Or.inr (List.mem_cons_of_mem _ hx)))))
                -- rewrite rest0 as g1 ++ ('\n' :: (mid ++ '\n' :: (g2 ++ u)))
                have hrest0eq : rest0 = g1 ++ ('\n' :: (mid ++ '\n' :: (g2 ++ u))) := by
                  conv_lhs => rw [← hsplitg]
                  rw [hgap1, hmid2]
                  simp
                have habs2 : splitOnBlank rest0 r1.reverse =
                    splitOnBlank ('\n' :: (mid ++ '\n' :: (g2 ++ u)))
                      (g1.reverse ++ r1.reverse) := by
                  rw [hrest0eq]
                  exact splitOnBlank_absorb_no_nl g1 _ r1.reverse hg1cnt
                have hsep2 : sepMatchAt ('\n' :: (mid ++ '\n' :: (g2 ++ u))) =
                    some (mid.length + 2) := by
                  rw [sepMatchAt_cons, if_pos rfl,
                    findLastNl_greedy mid g2 u hmidws hg2ws hg2cnt huhead]
                  rfl
                have hdropped : ('\n' :: (mid ++ '\n' :: (g2 ++ u))).drop (mid.length + 2) =
                    g2 ++ u := by
                  have heq : '\n' :: (mid ++ '\n' :: (g2 ++ u)) =
                      ('\n' :: (mid ++ ['\n'])) ++ (g2 ++ u) := by
                    simp
                  rw [heq]
                  have hlen2 : ('\n' :: (mid ++ ['\n'])).length = mid.length + 2 := by
                    simp only [List.length_cons, List.length_append, List.length_nil]
                  rw [← hlen2, List.drop_left]
                obtain ⟨p2, ps2, hp21, hp22⟩ := splitOnBlank_cons_exists N u
                  hulen (g2.reverse ++ [])
                have habs3 : splitOnBlank (g2 ++ u) [] = (g2 ++ p2) :: ps2 := by
                  rw [splitOnBlank_absorb_ws_le1 g2 u [] hg2ws (by omega) huhead, hp22]
                  simp
                rw [habs, habs2, splitOnBlank_sep _ _ _ hsep2, hdropped, habs3]
                have hrev : (g1.reverse ++ r1.reverse).reverse = r1 ++ g1 := by
                  simp
                rw [hrev]
                have hpred1 : decide (jsTrim (r1 ++ g1) ≠ []) = true :=
                  decide_eq_true (jsTrim_ne_nil_of_mem c (r1 ++ g1)
                    (List.mem_append.mpr (Or.inl hcr1)) (by simpa using hws))
                have hq0 : p2 = d :: q0 ∧ ps2 = qs := by
                  rw [hqu] at hp21
                  have h' := (List.cons.injEq _ _ _ _).mp hp21
                  exact ⟨h'.1.symm, h'.2.symm⟩
                have hpred2 : decide (jsTrim (g2 ++ p2) ≠ []) = true := by
                  refine decide_eq_true (jsTrim_ne_nil_of_mem d (g2 ++ p2) ?_ hdws)
                  rw [hq0.1]
                  exact List.mem_append.mpr (Or.inr (List.mem_cons_self _ _))
                rw [filterLen_cons, if_pos hpred1, filterLen_cons, if_pos hpred2, hq0.2]
                rw [hany, if_pos rfl]
                -- gaps side
                have hgc : gapsCounter (c :: t) false 0 = 1 + gapsCounter u' true 0 := by
                  conv_lhs => rw [← hsplitw]
                  rw [gapsCounter_nonws_run r1 hr1all (by
                    intro hx
                    rw [hx] at hr1pos
                    simp at hr1pos) rest0 false 0]
                  have : rest0 = gap ++ u := hsplitg.symm
                  rw [this, gapsCounter_ws_append gap hgapall u true 0, hucase,
                    gapsCounter_cons, if_neg (show ¬ (jsIsWs d = true) by simp [hdws])]
                  have hcnd : true = true ∧ 2 ≤ 0 + gap.count '\n' := ⟨rfl, by omega⟩
                  rw [if_pos hcnd]
                  simp
                rw [hgc, hihu]
                omega
              · -- no paragraph break: the gap is absorbed into the piece
                obtain ⟨p2, ps2, hp21, hp22⟩ := splitOnBlank_cons_exists N u
                  hulen (gap.reverse ++ r1.reverse)
                have habs2 : splitOnBlank rest0 r1.reverse =
                    ((gap.reverse ++ r1.reverse).reverse ++ p2) :: ps2 := by
                  conv_lhs => rw [← hsplitg]
                  rw [splitOnBlank_absorb_ws_le1 gap u r1.reverse hgapall
                    (by omega) huhead, hp22]
                rw [habs, habs2]
                have hrev : (gap.reverse ++ r1.reverse).reverse = r1 ++ gap := by
                  simp
                rw [hrev]
                have hpred1 : decide (jsTrim (r1 ++ gap ++ p2) ≠ []) = true := by
                  refine decide_eq_true (jsTrim_ne_nil_of_mem c _ ?_ (by simpa using hws))
                  exact List.mem_append.mpr (Or.inl (List.mem_append.mpr (Or.inl hcr1)))
                have hq0 : p2 = d :: q0 ∧ ps2 = qs := by
                  rw [hqu] at hp21
                  have h' := (List.cons.injEq _ _ _ _).mp hp21
                  exact ⟨h'.1.symm, h'.2.symm⟩
                rw [filterLen_cons, if_pos hpred1, hq0.2]
                rw [hany, if_pos rfl]
                have hgc : gapsCounter (c :: t) false 0 = gapsCounter u' true 0 := by
                  conv_lhs => rw [← hsplitw]
                  rw [gapsCounter_nonws_run r1 hr1all (by
                    intro hx
                    rw [hx] at hr1pos
                    simp at hr1pos) rest0 false 0]
                  have : rest0 = gap ++ u := hsplitg.symm
                  rw [this, gapsCounter_ws_append gap hgapall u true 0, hucase,
                    gapsCounter_cons, if_neg (show ¬ (jsIsWs d = true) by simp [hdws]),
                    if_neg (show ¬ (true = true ∧ 2 ≤ 0 + gap.count '\n') by
                      intro hx
                      exact hge2 (by
                        have h2 := hx.2
                        omega))]
                  simp
                rw [hgc, hihu]
            -- end cons d u'
    · -- a separator matches at the head of s
      obtain ⟨w, rest, hdec, hn, hwall⟩ := sepMatchAt_decomp s n hsep
      have hpre : s = ('\n' :: (w ++ ['\n'])) ++ rest := by
        rw [hdec]
        simp
      have hprews : (('\n' :: (w ++ ['\n'])) : Str).all jsIsWs = true := by
        rw [List.all_cons, List.all_append]
        simp [jsIsWs, hwall]
      have hdropn : s.drop n = rest := by
        rw [hpre]
        have hlenpre : (('\n' :: (w ++ ['\n'])) : Str).length = n := by
          simp only [List.length_cons, List.length_append, List.length_nil]
          omega
        rw [← hlenpre, List.drop_left]
      have hrestlen : rest.length ≤ N := by
        have : s.length = n + rest.length := by
          rw [hpre]
          simp only [List.length_append, List.length_cons, List.length_nil]
          omega
        omega
      rw [splitOnBlank_sep s [] n hsep, hdropn, filterLen_cons,
        if_neg (by simp [jsTrim])]
      have hih := ih rest hrestlen
      rw [hih]
      have hany : s.any (fun c => !(jsIsWs c)) = rest.any (fun c => !(jsIsWs c)) := by
        rw [hpre, List.any_append, any_nonws_of_allWs _ hprews]
        rfl
      have hgc : gapsCounter s false 0 = gapsCounter rest false 0 := by
        rw [hpre, gapsCounter_ws_prefix _ hprews]
      rw [hany, hgc]
      omega

/-- If no blank-line separator (a newline, a whitespace run, a newline)
occurs anywhere in the text, the split keeps the whole text as one piece. -/
theorem splitOnBlank_no_sep (text : Str)
    (hnosep : ¬ ∃ u w v, text = u ++ '\n' :: (w ++ '\n' :: v) ∧ w.all jsIsWs = true) :
    splitOnBlank text [] = [text] := by
  have habs := splitOnBlank_absorb text [] []
    (by
      intro a c b hdec
      cases hsep : sepMatchAt (c :: (b ++ [])) with
      | none => rfl
      | some n =>
        obtain ⟨w, rest, hd2, hn, hwall⟩ := sepMatchAt_decomp _ n hsep
        simp only [List.append_nil] at hd2
        refine absurd ⟨a, w, rest, ?_, hwall⟩ hnosep
        rw [hdec, hd2])
  rw [List.append_nil] at habs
  rw [habs, splitOnBlank_nil]
  simp

/-- C4: the Editor splitIntoParagraphs is a total function in this embedding
(defined for every input string), and it satisfies the segmentation edge
cases: the empty document yields the empty list; a document holding a
non-whitespace character and no blank-line separator (no occurrence of a
newline, then a whitespace run, then a newline) yields exactly one
paragraph spanning the whole input; all-whitespace leading and trailing
padding leaves the paragraph count unchanged. -/
theorem C4_splitIntoParagraphsEditor_edge_cases :
    splitIntoParagraphsEditor [] = [] ∧
    (∀ text : Str, text.any (fun c => !(jsIsWs c)) = true →
      (¬ ∃ u w v, text = u ++ '\n' :: (w ++ '\n' :: v) ∧ w.all jsIsWs = true) →
      splitIntoParagraphsEditor text = [text]) ∧
    (∀ pre text post : Str, pre.all jsIsWs = true → post.all jsIsWs = true →
      (splitIntoParagraphsEditor (pre ++ text ++ post)).length =
        (splitIntoParagraphsEditor text).length) := by
  refine ⟨?_, ?_, ?_⟩
  · unfold splitIntoParagraphsEditor
    rw [splitOnBlank_nil]
    decide
  · intro text hany hnosep
    unfold splitIntoParagraphsEditor
    rw [splitOnBlank_no_sep text hnosep]
    obtain ⟨c, hc, hcnw⟩ := List.any_eq_true.mp hany
    have hcws : jsIsWs c = false := by simpa using hcnw
    simp [List.filter_cons, jsTrim_ne_nil_of_mem c text hc hcws]
  · intro pre text post hpre hpost
    unfold splitIntoParagraphsEditor
    rw [editor_count_characterization (pre ++ text ++ post).length _ le_rfl,
      editor_count_characterization text.length text le_rfl]
    have hany : (pre ++ text ++ post).any (fun c => !(jsIsWs c)) =
        text.any (fun c => !(jsIsWs c)) := by
      rw [List.any_append, List.any_append, any_nonws_of_allWs pre hpre,
        any_nonws_of_allWs post hpost]
      simp
    have hgc : gapsCounter (pre ++ text ++ post) false 0 = gapsCounter text false 0 := by
      rw [gapsCounter_ws_suffix post hpost (pre ++ text) false 0,
        gapsCounter_ws_prefix pre hpre text 0]
    rw [hany, hgc]

/-- The C4 edge cases evaluated at concrete inputs. -/
theorem C4_splitIntoParagraphsEditor_edge_cases_witness :
    splitIntoParagraphsEditor [('a' : Char)] = [[('a' : Char)]] ∧
    (splitIntoParagraphsEditor (['\n'] ++ [('a' : Char)] ++ [' '])).length =
      (splitIntoParagraphsEditor [('a' : Char)]).length := by
  constructor
  · exact C4_splitIntoParagraphsEditor_edge_cases.2.1 [('a' : Char)] (by decide)
      (by
        rintro ⟨u, w, v, heq, -⟩
        have hlen := congrArg List.length heq
        simp only [List.length_append, List.length_cons, List.length_nil] at hlen
        omega)
  · exact C4_splitIntoParagraphsEditor_edge_cases.2.2 ['\n'] [('a' : Char)] [' ']
      (by decide) (by decide)

theorem not_nl_of_count_zero (r : Str) (hcnt : r.count '\n' = 0) (c : Char)
    (hc : c ∈ r) : ¬ c = '\n' := by
  intro h
  rw [h] at hc
  have := List.count_pos_iff.mpr hc
  omega

theorem pageScan_nil_none (pos : Nat) : pageScan [] pos none = [] := rfl

theorem pageScan_nil_some (pos : Nat) (cur : Str) (st : Nat) :
    pageScan [] pos (some (cur, st, false)) = [(cur.reverse, st)] := rfl

theorem pageScan_nil_pend (pos : Nat) (cur : Str) (st : Nat) :
    pageScan [] pos (some (cur, st, true)) = [(('\n' :: cur).reverse, st)] := rfl

theorem pageScan_cons_none_nl (t : Str) (pos : Nat) :
    pageScan ('\n' :: t) pos none = pageScan t (pos + 1) none := by
  simp [pageScan]

theorem pageScan_cons_none (c : Char) (t : Str) (pos : Nat) (hc : ¬ c = '\n') :
    pageScan (c :: t) pos none = pageScan t (pos + 1) (some ([c], pos, false)) := by
  simp [pageScan, hc]

theorem pageScan_cons_some_nl (t : Str) (pos : Nat) (cur : Str) (st : Nat) :
    pageScan ('\n' :: t) pos (some (cur, st, false)) =
      pageScan t (pos + 1) (some (cur, st, true)) := by
  simp [pageScan]

theorem pageScan_cons_pend_nl (t : Str) (pos : Nat) (cur : Str) (st : Nat) :
    pageScan ('\n' :: t) pos (some (cur, st, true)) =
      (cur.reverse, st) :: pageScan t (pos + 1) none := by
  simp [pageScan]

theorem pageScan_cons_some (c : Char) (t : Str) (pos : Nat) (cur : Str) (st : Nat)
    (hc : ¬ c = '\n') :
    pageScan (c :: t) pos (some (cur, st, false)) =
      pageScan t (pos + 1) (some (c :: cur, st, false)) := by
  simp [pageScan, hc]

theorem pageScan_cons_pend (c : Char) (t : Str) (pos : Nat) (cur : Str) (st : Nat)
    (hc : ¬ c = '\n') :
    pageScan (c :: t) pos (some (cur, st, true)) =
      pageScan t (pos + 1) (some (c :: '\n' :: cur, st, false)) := by
  simp [pageScan, hc]

theorem pageScan_app_nonl_some (r : Str) : r.count '\n' = 0 → ∀ (t : Str) (pos : Nat)
    (cur : Str) (st : Nat),
    pageScan (r ++ t) pos (some (cur, st, false)) =
      pageScan t (pos + r.length) (some (r.reverse ++ cur, st, false)) := by
  induction r with
  | nil => intro _ t pos cur st; simp
  | cons c r2 ih =>
    intro hcnt t pos cur st
    have hc : ¬ c = '\n' := not_nl_of_count_zero _ hcnt c (by simp)
    have hcnt2 : r2.count '\n' = 0 := by
      rw [List.count_cons] at hcnt
      omega
    rw [List.cons_append, pageScan_cons_some c _ pos cur st hc,
      ih hcnt2 t (pos + 1) (c :: cur) st]
    have h1 : pos + 1 + r2.length = pos + (c :: r2).length := by
      simp only [List.length_cons]
      omega
    have h2 : r2.reverse ++ (c :: cur) = (c :: r2).reverse ++ cur := by simp
    rw [h1, h2]

theorem pageScan_app_nonl_none (r : Str) (hcnt : r.count '\n' = 0) (hne : r ≠ [])
    (t : Str) (pos : Nat) :
    pageScan (r ++ t) pos none =
      pageScan t (pos + r.length) (some (r.reverse, pos, false)) := by
  cases r with
  | nil => exact absurd rfl hne
  | cons c r2 =>
    have hc : ¬ c = '\n' := not_nl_of_count_zero _ hcnt c (by simp)
    have hcnt2 : r2.count '\n' = 0 := by
      rw [List.count_cons] at hcnt
      omega
    rw [List.cons_append, pageScan_cons_none c _ pos hc,
      pageScan_app_nonl_some r2 hcnt2 t (pos + 1) [c] pos]
    have h1 : pos + 1 + r2.length = pos + (c :: r2).length := by
      simp only [List.length_cons]
      omega
    have h2 : r2.reverse ++ [c] = (c :: r2).reverse := by simp
    rw [h1, h2]

theorem pageScan_app_nonl_pend (r : Str) (hcnt : r.count '\n' = 0) (hne : r ≠ [])
    (t : Str) (pos : Nat) (cur : Str) (st : Nat) :
    pageScan (r ++ t) pos (some (cur, st, true)) =
      pageScan t (pos + r.length) (some (r.reverse ++ '\n' :: cur, st, false)) := by
  cases r with
  | nil => exact absurd rfl hne
  | cons c r2 =>
    have hc : ¬ c = '\n' := not_nl_of_count_zero _ hcnt c (by simp)
    have hcnt2 : r2.count '\n' = 0 := by
      rw [List.count_cons] at hcnt
      omega
    rw [List.cons_append, pageScan_cons_pend c _ pos cur st hc,
      pageScan_app_nonl_some r2 hcnt2 t (pos + 1) (c :: '\n' :: cur) st]
    have h1 : pos + 1 + r2.length = pos + (c :: r2).length := by
      simp only [List.length_cons]
      omega
    have h2 : r2.reverse ++ (c :: '\n' :: cur) = (c :: r2).reverse ++ '\n' :: cur := by
      simp
    rw [h1, h2]

theorem pageScan_nlrun_none : ∀ (k : Nat) (t : Str) (pos : Nat),
    pageScan (List.replicate k '\n' ++ t) pos none = pageScan t (pos + k) none := by
  intro k
  induction k with
  | zero => intro t pos; simp
  | succ j ih =>
    intro t pos
    rw [List.replicate_succ, List.cons_append, pageScan_cons_none_nl, ih t (pos + 1)]
    have h1 : pos + 1 + j = pos + (j + 1) := by omega
    rw [h1]

theorem pageScan_nlrun_some (k : Nat) (hk : 2 ≤ k) (t : Str) (pos : Nat) (cur : Str)
    (st : Nat) :
    pageScan (List.replicate k '\n' ++ t) pos (some (cur, st, false)) =
      (cur.reverse, st) :: pageScan t (pos + k) none := by
  obtain ⟨j, rfl⟩ : ∃ j, k = j + 2 := ⟨k - 2, by omega⟩
  rw [List.replicate_succ, List.replicate_succ, List.cons_append, List.cons_append,
    pageScan_cons_some_nl, pageScan_cons_pend_nl, pageScan_nlrun_none j t (pos + 1 + 1)]
  have h1 : pos + 1 + 1 + j = pos + (j + 2) := by omega
  rw [h1]

theorem trim_pred_true_of_any (w x : Str) (hw : w.any (fun c => !(jsIsWs c)) = true) :
    decide (jsTrim (w ++ x) ≠ []) = true := by
  obtain ⟨c, hc, hcw⟩ := List.any_eq_true.mp hw
  exact decide_eq_true
    (jsTrim_ne_nil_of_mem c _ (List.mem_append.mpr (Or.inl hc)) (by simpa using hcw))

theorem trim_pred_false_of_allWs (x : Str) (hx : x.all jsIsWs = true) :
    decide (jsTrim x ≠ []) = false := by
  rw [decide_eq_false_iff_not]
  intro h
  exact h ((jsTrim_eq_nil_iff x).mpr hx)

theorem filter_cons_pos (f : Str → Bool) (x : Str) (xs : List Str) (h : f x = true) :
    (x :: xs).filter f = x :: xs.filter f := by
  rw [List.filter_cons, if_pos h]

theorem filter_cons_neg (f : Str → Bool) (x : Str) (xs : List Str) (h : f x = false) :
    (x :: xs).filter f = xs.filter f := by
  rw [List.filter_cons, if_neg (by simp [h])]

theorem allWs_of_append_left (a b : Str) (h : (a ++ b).all jsIsWs = true) :
    a.all jsIsWs = true := by
  rw [List.all_append, Bool.and_eq_true] at h
  exact h.1

theorem allWs_of_append_right (a b : Str) (h : (a ++ b).all jsIsWs = true) :
    b.all jsIsWs = true := by
  rw [List.all_append, Bool.and_eq_true] at h
  exact h.2

theorem pageScan_allWs : ∀ (s : Str), s.all jsIsWs = true →
    (∀ pos, ((pageScan s pos none).map Prod.fst).filter
      (fun p => jsTrim p ≠ []) = []) ∧
    (∀ pos cur st pend, cur.all jsIsWs = true →
      ((pageScan s pos (some (cur, st, pend))).map Prod.fst).filter
        (fun p => jsTrim p ≠ []) = []) := by
  intro s
  induction s with
  | nil =>
    intro _
    refine ⟨fun pos => rfl, fun pos cur st pend hcur => ?_⟩
    cases pend
    · rw [pageScan_nil_some]
      refine filter_ws_nil _ ?_
      intro p hp
      have hpc : p = cur.reverse := by simpa using hp
      rw [hpc, List.all_reverse]
      exact hcur
    · rw [pageScan_nil_pend]
      refine filter_ws_nil _ ?_
      intro p hp
      have hpc : p = ('\n' :: cur).reverse := by simpa using hp
      rw [hpc, List.all_reverse, List.all_cons, hcur]
      decide
  | cons c t ih =>
    intro hs
    have hs2 := hs
    rw [List.all_cons, Bool.and_eq_true] at hs2
    have hcws : jsIsWs c = true := hs2.1
    have hts : t.all jsIsWs = true := hs2.2
    have iht := ih hts
    constructor
    · intro pos
      by_cases hc : c = '\n'
      · rw [hc, pageScan_cons_none_nl]
        exact iht.1 (pos + 1)
      · rw [pageScan_cons_none c t pos hc]
        exact iht.2 (pos + 1) [c] pos false (by simp [hcws])
    · intro pos cur st pend hcur
      by_cases hc : c = '\n'
      · cases pend
        · rw [hc, pageScan_cons_some_nl]
          exact iht.2 (pos + 1) cur st true hcur
        · rw [hc, pageScan_cons_pend_nl, List.map_cons]
          have hemit : ((cur.reverse, st) : Str × Nat).1 = cur.reverse := rfl
          rw [hemit, filter_cons_neg _ cur.reverse _
            (trim_pred_false_of_allWs cur.reverse
              (by rw [List.all_reverse]; exact hcur))]
          exact iht.1 (pos + 1)
      · cases pend
        · rw [pageScan_cons_some c t pos cur st hc]
          exact iht.2 (pos + 1) (c :: cur) st false (by simp [hcws, hcur])
        · rw [pageScan_cons_pend c t pos cur st hc]
          refine iht.2 (pos + 1) (c :: '\n' :: cur) st false ?_
          rw [List.all_cons, List.all_cons, hcur, hcws]
          decide

theorem splitOnBlank_allWs_filter (s : Str) (hws : s.all jsIsWs = true) :
    (splitOnBlank s []).filter (fun p => jsTrim p ≠ []) = [] := by
  refine filter_ws_nil _ ?_
  intro p hp
  exact splitOnBlank_allWs s.length s le_rfl hws [] rfl p hp

theorem noSpacedSep_of_append_left (a b : Str) (h : noSpacedSep (a ++ b)) :
    noSpacedSep a := by
  intro u w v hdec hws
  refine h u w (v ++ b) ?_ hws
  rw [hdec]
  simp

theorem noSpacedSep_of_append_right (a b : Str) (h : noSpacedSep (a ++ b)) :
    noSpacedSep b := by
  intro u w v hdec hws
  refine h (a ++ u) w v ?_ hws
  rw [hdec, List.append_assoc]

theorem noSpacedSep_suffix (s a b : Str) (h : noSpacedSep s) (he : s = a ++ b) :
    noSpacedSep b :=
  noSpacedSep_of_append_right a b (he ▸ h)

theorem noSpacedSep_prefix (s a b : Str) (h : noSpacedSep s) (he : s = a ++ b) :
    noSpacedSep a :=
  noSpacedSep_of_append_left a b (he ▸ h)

theorem ws_gap_structure (g : Str) (hns : noSpacedSep g) (hws : g.all jsIsWs = true) :
    ∃ sp1 k sp2, g = sp1 ++ List.replicate k '\n' ++ sp2 ∧
      sp1.count '\n' = 0 ∧ sp2.count '\n' = 0 ∧ k = g.count '\n' := by
  by_cases hnl : '\n' ∈ g
  · obtain ⟨a, b, hab, hacnt⟩ := exists_first_nl g hnl
    by_cases hnlb : '\n' ∈ b
    · obtain ⟨m, b2, hmb, hbcnt⟩ := exists_last_nl b hnlb
      have hdec : g = a ++ '\n' :: (m ++ '\n' :: b2) := by rw [hab, hmb]
      have hmws : m.all jsIsWs = true := by
        rw [List.all_eq_true]
        intro x hx
        have hxg : x ∈ g := by
          rw [hdec]
          simp [hx]
        exact (List.all_eq_true.mp hws) x hxg
      have hmnl := hns a m b2 hdec hmws
      have hmrep : m = List.replicate m.length '\n' := List.eq_replicate_of_mem hmnl
      refine ⟨a, m.length + 2, b2, ?_, hacnt, hbcnt, ?_⟩
      · rw [hdec]
        conv_lhs => rw [hmrep]
        rw [List.replicate_succ, List.replicate_succ']
        simp
      · rw [hdec, List.count_append, List.count_cons, List.count_append,
          List.count_cons]
        have hmcnt : m.count '\n' = m.length := by
          conv_lhs => rw [hmrep]
          rw [List.count_replicate]
          simp
        rw [hacnt, hbcnt, hmcnt]
        simp
    · refine ⟨a, 1, b, ?_, hacnt, List.count_eq_zero.mpr hnlb, ?_⟩
      · rw [hab]
        simp [List.replicate]
      · rw [hab, List.count_append, List.count_cons, hacnt,
          List.count_eq_zero.mpr hnlb]
        simp
  · exact ⟨g, 0, [], by simp, List.count_eq_zero.mpr hnl, rfl,
      by simp [List.count_eq_zero.mpr hnl]⟩

theorem sepMatchAt_nlrun (k : Nat) (hk : 2 ≤ k) (sp2 u : Str)
    (hsp2 : sp2.all jsIsWs = true) (hsp2cnt : sp2.count '\n' = 0)
    (hu : ∀ d, u.head? = some d → jsIsWs d = false) :
    sepMatchAt (List.replicate k '\n' ++ (sp2 ++ u)) = some k := by
  obtain ⟨j, rfl⟩ : ∃ j, k = j + 2 := ⟨k - 2, by omega⟩
  have hshape : List.replicate (j + 2) '\n' ++ (sp2 ++ u) =
      '\n' :: (List.replicate j '\n' ++ '\n' :: (sp2 ++ u)) := by
    rw [List.replicate_succ, List.replicate_succ']
    simp
  have hrepws : (List.replicate j '\n').all jsIsWs = true := by
    rw [List.all_eq_true]
    intro x hx
    rw [List.eq_of_mem_replicate hx]
    decide
  rw [hshape, sepMatchAt_cons, if_pos rfl,
    findLastNl_greedy (List.replicate j '\n') sp2 u hrepws hsp2 hsp2cnt hu]
  simp

theorem drop_append_of_length (a b : Str) (n : Nat) (h : a.length = n) :
    (a ++ b).drop n = b := by
  rw [← h]
  exact List.drop_left _ _

theorem count_zero_of_all_nonws (r : Str) (h : r.all (fun c => !(jsIsWs c)) = true) :
    r.count '\n' = 0 := by
  rw [List.count_eq_zero]
  intro hmem
  have := (List.all_eq_true.mp h) '\n' hmem
  revert this
  decide

theorem splitOnBlank_chunk (g r1 rest acc : Str) (hg : g.all jsIsWs = true)
    (hgcnt : g.count '\n' ≤ 1) (hr1 : r1.all (fun c => !(jsIsWs c)) = true)
    (hr1ne : r1 ≠ []) :
    splitOnBlank (g ++ (r1 ++ rest)) acc =
      splitOnBlank rest (r1.reverse ++ g.reverse ++ acc) := by
  have hhead : ∀ d, (r1 ++ rest).head? = some d → jsIsWs d = false := by
    intro d hd
    cases r1 with
    | nil => exact absurd rfl hr1ne
    | cons a r1t =>
      have hda : a = d := by simpa using hd
      rw [← hda]
      have := (List.all_eq_true.mp hr1) a (by simp)
      simpa using this
  rw [splitOnBlank_absorb_ws_le1 g (r1 ++ rest) acc hg hgcnt hhead,
    splitOnBlank_absorb_no_nl r1 rest (g.reverse ++ acc) (count_zero_of_all_nonws r1 hr1),
    List.append_assoc]

theorem pageScan_chunk_some (g r1 rest : Str) (pos : Nat) (cur : Str) (st : Nat)
    (hgcnt : g.count '\n' ≤ 1) (hr1cnt : r1.count '\n' = 0) (hr1ne : r1 ≠ []) :
    pageScan (g ++ (r1 ++ rest)) pos (some (cur, st, false)) =
      pageScan rest (pos + g.length + r1.length)
        (some (r1.reverse ++ g.reverse ++ cur, st, false)) := by
  by_cases hnl : '\n' ∈ g
  · obtain ⟨sp1, sp2, hg, hsp1cnt⟩ := exists_first_nl g hnl
    have hgcount : g.count '\n' = sp1.count '\n' + sp2.count '\n' + 1 := by
      rw [hg]
      simp [List.count_append, List.count_cons]
      omega
    have hsp2cnt : sp2.count '\n' = 0 := by omega
    have hshape : g ++ (r1 ++ rest) = sp1 ++ ('\n' :: ((sp2 ++ r1) ++ rest)) := by
      rw [hg]
      simp [List.append_assoc]
    rw [hshape, pageScan_app_nonl_some sp1 hsp1cnt _ pos cur st, pageScan_cons_some_nl,
      pageScan_app_nonl_pend (sp2 ++ r1)
        (by rw [List.count_append]; omega)
        (by cases r1 with
          | nil => exact absurd rfl hr1ne
          | cons a r1t => simp)
        rest _ _ st]
    have hA : pos + sp1.length + 1 + (sp2 ++ r1).length =
        pos + g.length + r1.length := by
      rw [hg]
      simp only [List.length_append, List.length_cons]
      omega
    have hB : (sp2 ++ r1).reverse ++ '\n' :: (sp1.reverse ++ cur) =
        r1.reverse ++ g.reverse ++ cur := by
      rw [hg]
      simp
    rw [hA, hB]
  · have hg0 : g.count '\n' = 0 := List.count_eq_zero.mpr hnl
    have hshape : g ++ (r1 ++ rest) = (g ++ r1) ++ rest := by
      simp [List.append_assoc]
    rw [hshape, pageScan_app_nonl_some (g ++ r1)
      (by rw [List.count_append]; omega) rest pos cur st]
    have hA : pos + (g ++ r1).length = pos + g.length + r1.length := by
      simp only [List.length_append]
      omega
    have hB : (g ++ r1).reverse ++ cur = r1.reverse ++ g.reverse ++ cur := by
      simp
    rw [hA, hB]

theorem pageScan_chunk_none (g r1 rest : Str) (pos : Nat)
    (hgcnt : g.count '\n' ≤ 1) (hghead : g.head? ≠ some '\n')
    (hr1cnt : r1.count '\n' = 0) (hr1ne : r1 ≠ []) :
    pageScan (g ++ (r1 ++ rest)) pos none =
      pageScan rest (pos + g.length + r1.length)
        (some (r1.reverse ++ g.reverse, pos, false)) := by
  cases g with
  | nil =>
    simp only [List.nil_append]
    rw [pageScan_app_nonl_none r1 hr1cnt hr1ne rest pos]
    have hA : pos + r1.length = pos + ([] : Str).length + r1.length := by simp
    have hB : (r1.reverse : Str) = r1.reverse ++ ([] : Str).reverse := by simp
    rw [← hA, ← hB]
  | cons c gt =>
    have hc : ¬ c = '\n' := by
      intro h
      exact hghead (by rw [h]; rfl)
    have hgtcnt : gt.count '\n' ≤ 1 := by
      rw [List.count_cons] at hgcnt
      omega
    rw [List.cons_append, pageScan_cons_none c _ pos hc,
      pageScan_chunk_some gt r1 rest (pos + 1) [c] pos hgtcnt hr1cnt hr1ne]
    have hA : pos + 1 + gt.length + r1.length = pos + (c :: gt).length + r1.length := by
      simp only [List.length_cons]
      omega
    have hB : r1.reverse ++ gt.reverse ++ [c] = r1.reverse ++ (c :: gt).reverse := by
      simp
    rw [hA, hB]

theorem pageScan_ws_tail (g : Str) (pos : Nat) (cur : Str) (st : Nat)
    (hgcnt : g.count '\n' ≤ 1) :
    pageScan g pos (some (cur, st, false)) = [(cur.reverse ++ g, st)] := by
  by_cases hnl : '\n' ∈ g
  · obtain ⟨sp1, sp2, hg, hsp1cnt⟩ := exists_first_nl g hnl
    have hgcount : g.count '\n' = sp1.count '\n' + sp2.count '\n' + 1 := by
      rw [hg]
      simp [List.count_append, List.count_cons]
      omega
    have hsp2cnt : sp2.count '\n' = 0 := by omega
    rw [hg, pageScan_app_nonl_some sp1 hsp1cnt _ pos cur st, pageScan_cons_some_nl]
    cases hsp2 : sp2 with
    | nil =>
      rw [pageScan_nil_pend]
      have hB : ('\n' :: (sp1.reverse ++ cur)).reverse =
          cur.reverse ++ (sp1 ++ '\n' :: ([] : Str)) := by
        simp
      rw [hB]
    | cons e sp2t =>
      rw [← hsp2,
        show (sp2 : Str) = sp2 ++ [] from by simp,
        pageScan_app_nonl_pend sp2 (by omega)
          (by rw [hsp2]; simp) [] _ _ st,
        pageScan_nil_some]
      have hB : (sp2.reverse ++ '\n' :: (sp1.reverse ++ cur)).reverse =
          cur.reverse ++ (sp1 ++ '\n' :: (sp2 ++ [])) := by
        simp
      rw [hB]
  · have hg0 : g.count '\n' = 0 := List.count_eq_zero.mpr hnl
    rw [show (g : Str) = g ++ [] from by simp,
      pageScan_app_nonl_some g (by simpa using hg0) [] pos cur st, pageScan_nil_some]
    have hB : (g.reverse ++ cur).reverse = cur.reverse ++ (g ++ []) := by simp
    rw [hB]

theorem splitOnBlank_sepchunk (sp1 : Str) (k : Nat) (hk : 2 ≤ k) (sp2 u acc : Str)
    (hsp1cnt : sp1.count '\n' = 0) (hsp2ws : sp2.all jsIsWs = true)
    (hsp2cnt : sp2.count '\n' = 0) (hu : ∀ d, u.head? = some d → jsIsWs d = false) :
    splitOnBlank (sp1 ++ (List.replicate k '\n' ++ (sp2 ++ u))) acc =
      (acc.reverse ++ sp1) :: splitOnBlank (sp2 ++ u) [] := by
  rw [splitOnBlank_absorb_no_nl sp1 _ acc hsp1cnt,
    splitOnBlank_sep _ _ k (sepMatchAt_nlrun k hk sp2 u hsp2ws hsp2cnt hu),
    drop_append_of_length (List.replicate k '\n') (sp2 ++ u) k (by simp)]
  simp

theorem pageScan_sepchunk_some (sp1 : Str) (k : Nat) (hk : 2 ≤ k) (sp2 u : Str)
    (pos : Nat) (cur : Str) (st : Nat) (hsp1cnt : sp1.count '\n' = 0) :
    pageScan (sp1 ++ (List.replicate k '\n' ++ (sp2 ++ u))) pos (some (cur, st, false)) =
      (cur.reverse ++ sp1, st) :: pageScan (sp2 ++ u) (pos + sp1.length + k) none := by
  rw [pageScan_app_nonl_some sp1 hsp1cnt _ pos cur st, pageScan_nlrun_some k hk]
  have hB : (sp1.reverse ++ cur).reverse = cur.reverse ++ sp1 := by simp
  rw [hB]

theorem pageScan_sepchunk_none (sp1 : Str) (k : Nat) (hk : 2 ≤ k) (sp2 u : Str)
    (pos : Nat) (hsp1cnt : sp1.count '\n' = 0) (hne : sp1 ≠ []) :
    pageScan (sp1 ++ (List.replicate k '\n' ++ (sp2 ++ u))) pos none =
      (sp1, pos) :: pageScan (sp2 ++ u) (pos + sp1.length + k) none := by
  rw [pageScan_app_nonl_none sp1 hsp1cnt hne _ pos, pageScan_nlrun_some k hk]
  simp

theorem head_ne_nl_of_parts (sp2 u : Str) (hsp2cnt : sp2.count '\n' = 0)
    (hu : ∀ d, u.head? = some d → jsIsWs d = false) :
    (sp2 ++ u).head? ≠ some '\n' := by
  cases sp2 with
  | nil =>
    cases u with
    | nil => simp
    | cons d u2 =>
      have := hu d (by simp)
      simp only [List.nil_append, List.head?_cons]
      intro h
      have hd : d = '\n' := by simpa using h
      rw [hd] at this
      revert this
      decide
  | cons c sp2t =>
    have hc : ¬ c = '\n' := not_nl_of_count_zero _ hsp2cnt c (by simp)
    simp only [List.cons_append, List.head?_cons]
    intro h
    exact hc (by simpa using h)

/-- Joint induction: under the amended side condition the Editor split and
the EditorPage regex scan keep the same trim-surviving pieces, both from a
fresh scan position (first component, document not opening with a newline)
and from the middle of a piece `w` already holding a non-whitespace
character (second component). -/
theorem editor_page_equiv : ∀ (N : Nat) (s : Str), s.length ≤ N → noSpacedSep s →
    ((s.head? ≠ some '\n') → ∀ pos : Nat,
      (splitOnBlank s []).filter (fun p => jsTrim p ≠ []) =
        ((pageScan s pos none).map Prod.fst).filter (fun p => jsTrim p ≠ [])) ∧
    (∀ w : Str, w.any (fun c => !(jsIsWs c)) = true → ∀ pos st : Nat,
      (splitOnBlank s w.reverse).filter (fun p => jsTrim p ≠ []) =
        ((pageScan s pos (some (w.reverse, st, false))).map Prod.fst).filter
          (fun p => jsTrim p ≠ [])) := by
  intro N
  induction N with
  | zero =>
    intro s hs hns
    have hnil : s = [] := List.length_eq_zero.mp (Nat.le_zero.mp hs)
    subst hnil
    constructor
    · intro _ pos
      rw [splitOnBlank_nil, pageScan_nil_none]
      rfl
    · intro w hw pos st
      rw [splitOnBlank_nil, pageScan_nil_some]
      rfl
  | succ N ih =>
    intro s hs hns
    obtain ⟨g, u, hgu, hgws, huhead⟩ :
        ∃ g u, g ++ u = s ∧ g.all jsIsWs = true ∧
          ∀ d, u.head? = some d → jsIsWs d = false := by
      refine ⟨s.takeWhile jsIsWs, s.dropWhile jsIsWs,
        List.takeWhile_append_dropWhile jsIsWs s, takeWhile_all jsIsWs s, ?_⟩
      intro e he
      cases hcase : s.dropWhile jsIsWs with
      | nil => rw [hcase] at he; cases he
      | cons x xs =>
        rw [hcase] at he
        have hex : x = e := by simpa using he
        rw [← hex]
        exact dropWhile_head_false jsIsWs s x xs hcase
    have hnsg : noSpacedSep g := noSpacedSep_prefix s g u hns hgu.symm
    obtain ⟨sp1, k, sp2, hgsp, hsp1cnt, hsp2cnt, hkcnt⟩ := ws_gap_structure g hnsg hgws
    have hgall := hgsp ▸ hgws
    have hsp1ws : sp1.all jsIsWs = true :=
      allWs_of_append_left _ _ (allWs_of_append_left _ _ hgall)
    have hsp2ws : sp2.all jsIsWs = true := allWs_of_append_right _ _ hgall
    by_cases hk : 2 ≤ k
    · -- the leading whitespace gap holds a run of at least two newlines
      have hshape : s = sp1 ++ (List.replicate k '\n' ++ (sp2 ++ u)) := by
        rw [← hgu, hgsp]
        simp [List.append_assoc]
      have hlen2 : (sp2 ++ u).length ≤ N := by
        have hslen := congrArg List.length hshape
        simp only [List.length_append, List.length_replicate] at hslen
        simp only [List.length_append]
        omega
      have hns2 : noSpacedSep (sp2 ++ u) :=
        noSpacedSep_suffix s (sp1 ++ List.replicate k '\n') (sp2 ++ u) hns
          (by rw [hshape]; simp [List.append_assoc])
      have hhead2 : (sp2 ++ u).head? ≠ some '\n' :=
        head_ne_nl_of_parts sp2 u hsp2cnt huhead
      have hrec := (ih (sp2 ++ u) hlen2 hns2).1 hhead2
      constructor
      · intro hhead pos
        have hsp1ne : sp1 ≠ [] := by
          intro h0
          apply hhead
          obtain ⟨j, hkj⟩ : ∃ j, k = j + 2 := ⟨k - 2, by omega⟩
          rw [hshape, h0, hkj, List.replicate_succ]
          simp
        rw [hshape,
          splitOnBlank_sepchunk sp1 k hk sp2 u [] hsp1cnt hsp2ws hsp2cnt huhead,
          pageScan_sepchunk_none sp1 k hk sp2 u pos hsp1cnt hsp1ne,
          List.map_cons]
        simp only [List.reverse_nil, List.nil_append]
        rw [filter_cons_neg _ sp1 _ (trim_pred_false_of_allWs sp1 hsp1ws),
          filter_cons_neg _ sp1 _ (trim_pred_false_of_allWs sp1 hsp1ws)]
        exact hrec (pos + sp1.length + k)
      · intro w hw pos st
        rw [hshape,
          splitOnBlank_sepchunk sp1 k hk sp2 u w.reverse hsp1cnt hsp2ws hsp2cnt huhead,
          pageScan_sepchunk_some sp1 k hk sp2 u pos w.reverse st hsp1cnt,
          List.map_cons, List.reverse_reverse]
        rw [filter_cons_pos _ _ _ (trim_pred_true_of_any w sp1 hw),
          filter_cons_pos _ _ _ (trim_pred_true_of_any w sp1 hw)]
        rw [hrec (pos + sp1.length + k)]
    · -- the leading whitespace gap holds at most one newline
      have hgcnt : g.count '\n' ≤ 1 := by omega
      cases u with
      | nil =>
        have hsws : s.all jsIsWs = true := by
          rw [← hgu, List.append_nil]
          exact hgws
        constructor
        · intro _ pos
          rw [splitOnBlank_allWs_filter s hsws, (pageScan_allWs s hsws).1 pos]
        · intro w hw pos st
          have hse : s = g := by rw [← hgu, List.append_nil]
          have hE : splitOnBlank g w.reverse = [w ++ g] := by
            conv_lhs => rw [← List.append_nil g]
            rw [splitOnBlank_absorb_ws_le1 g [] w.reverse hgws hgcnt
              (fun d hd => by simp at hd), splitOnBlank_nil]
            simp
          have hP : (pageScan g pos (some (w.reverse, st, false))).map Prod.fst =
              [w ++ g] := by
            rw [pageScan_ws_tail g pos w.reverse st hgcnt]
            simp
          rw [hse, hE, hP]
      | cons d u2 =>
        have hd : jsIsWs d = false := huhead d rfl
        obtain ⟨r1, rest, hu12, hr1all, hr1ne⟩ :
            ∃ r1 rest, r1 ++ rest = d :: u2 ∧
              r1.all (fun c => !(jsIsWs c)) = true ∧ r1 ≠ [] := by
          refine ⟨d :: u2.takeWhile (fun c => !(jsIsWs c)),
            u2.dropWhile (fun c => !(jsIsWs c)), ?_, ?_, by simp⟩
          · show d :: (u2.takeWhile _ ++ u2.dropWhile _) = d :: u2
            rw [List.takeWhile_append_dropWhile]
          · rw [List.all_cons]
            simp [hd, takeWhile_all]
        have hr1cnt : r1.count '\n' = 0 := count_zero_of_all_nonws r1 hr1all
        have hshape : s = g ++ (r1 ++ rest) := by
          rw [← hgu, ← hu12]
        have hr1pos : 1 ≤ r1.length := by
          cases r1 with
          | nil => exact absurd rfl hr1ne
          | cons a t => simp
        have hrestlen : rest.length ≤ N := by
          have hslen := congrArg List.length hshape
          simp only [List.length_append] at hslen
          omega
        have hnsrest : noSpacedSep rest :=
          noSpacedSep_suffix s (g ++ r1) rest hns
            (by rw [hshape]; simp [List.append_assoc])
        have hrec := (ih rest hrestlen hnsrest).2
        have hwrev : (g ++ r1).reverse = r1.reverse ++ g.reverse := by simp
        have hr1any : r1.any (fun c => !(jsIsWs c)) = true := by
          cases hr1c : r1 with
          | nil => exact absurd hr1c hr1ne
          | cons a t =>
            rw [List.any_cons]
            have ha := (List.all_eq_true.mp hr1all) a (by rw [hr1c]; simp)
            rw [ha]
            rfl
        have hanyg : (g ++ r1).any (fun c => !(jsIsWs c)) = true := by
          rw [List.any_append, hr1any]
          simp
        constructor
        · intro hhead pos
          have hghead : g.head? ≠ some '\n' := by
            intro hcontra
            apply hhead
            rw [← hgu]
            cases g with
            | nil => simp at hcontra
            | cons a gt => simpa using hcontra
          rw [hshape, splitOnBlank_chunk g r1 rest [] hgws hgcnt hr1all hr1ne,
            pageScan_chunk_none g r1 rest pos hgcnt hghead hr1cnt hr1ne,
            List.append_nil, ← hwrev]
          exact hrec (g ++ r1) hanyg (pos + g.length + r1.length) pos
        · intro w hw pos st
          rw [hshape, splitOnBlank_chunk g r1 rest w.reverse hgws hgcnt hr1all hr1ne,
            pageScan_chunk_some g r1 rest pos w.reverse st hgcnt hr1cnt hr1ne]
          have hwrev2 : (w ++ (g ++ r1)).reverse =
              r1.reverse ++ g.reverse ++ w.reverse := by
            simp
          rw [← hwrev2]
          refine hrec (w ++ (g ++ r1)) ?_ (pos + g.length + r1.length) st
          rw [List.any_append, hw]
          rfl

theorem enumFrom_map_content : ∀ (L : List (Str × Nat)) (n : Nat),
    ((List.enumFrom n L).map
      (fun e => (⟨e.1, e.2.1, e.2.2, e.2.2 + e.2.1.length⟩ : PageParagraph))).map
      PageParagraph.content = L.map Prod.fst := by
  intro L
  induction L with
  | nil => intro n; rfl
  | cons y ys ih =>
    intro n
    simp only [List.enumFrom_cons, List.map_cons, ih (n + 1)]

theorem map_fst_filter : ∀ (l : List (Str × Nat)),
    (l.filter (fun m => jsTrim m.1 ≠ [])).map Prod.fst =
      (l.map Prod.fst).filter (fun p => jsTrim p ≠ []) := by
  intro l
  induction l with
  | nil => rfl
  | cons x xs ih =>
    simp only [List.filter_cons, List.map_cons]
    by_cases h : decide (jsTrim x.1 ≠ []) = true
    · rw [if_pos h, if_pos h, List.map_cons, ih]
    · rw [if_neg h, if_neg h, ih]

theorem page_contents_eq (text : Str) :
    (splitIntoParagraphsPage text).map PageParagraph.content =
      ((pageScan text 0 none).map Prod.fst).filter (fun p => jsTrim p ≠ []) := by
  unfold splitIntoParagraphsPage
  have henum : ((pageScan text 0 none).filter (fun m => jsTrim m.1 ≠ [])).enum =
      List.enumFrom 0 ((pageScan text 0 none).filter (fun m => jsTrim m.1 ≠ [])) := rfl
  rw [henum,
    enumFrom_map_content ((pageScan text 0 none).filter
      (fun m => jsTrim m.1 ≠ [])) 0,
    map_fst_filter]

/-- C5 counterexample: on the document a, newline, space, newline, b the
Editor split gives the two paragraphs a and b (its separator regex accepts
the space standing between the two newlines), while the EditorPage scan
gives the single paragraph spanning the whole document (its regex breaks
only at immediately adjacent newlines), so the two implementations do not
agree on every input. -/
theorem C5_counterexample :
    ¬ (splitIntoParagraphsEditor [('a' : Char), '\n', ' ', '\n', 'b'] =
      (splitIntoParagraphsPage [('a' : Char), '\n', ' ', '\n', 'b']).map
        PageParagraph.content) := by
  have he : splitIntoParagraphsEditor [('a' : Char), '\n', ' ', '\n', 'b'] =
      [[('a' : Char)], [('b' : Char)]] := by
    simp [splitIntoParagraphsEditor, splitOnBlank_eq, sepMatchAt, findLastNl,
      jsIsWs, jsTrim]
  have hp : (splitIntoParagraphsPage [('a' : Char), '\n', ' ', '\n', 'b']).map
      PageParagraph.content = [[('a' : Char), '\n', ' ', '\n', 'b']] := by
    decide
  rw [he, hp]
  decide

/-- C5 (amended): the two segmentation implementations agree whenever every
whitespace-only run standing strictly between two newlines of the document
consists of newlines alone and the document does not begin with a newline;
then the Editor split and the EditorPage offset scan produce the same
paragraphs, with identical text content in the same order. -/
theorem C5_segmentation_equiv_amended (text : Str)
    (h1 : ∀ u w v, text = u ++ '\n' :: (w ++ '\n' :: v) → w.all jsIsWs = true →
      ∀ c, c ∈ w → c = '\n')
    (h2 : text.head? ≠ some '\n') :
    splitIntoParagraphsEditor text =
      (splitIntoParagraphsPage text).map PageParagraph.content := by
  rw [page_contents_eq]
  exact (editor_page_equiv text.length text le_rfl h1).1 h2 0

/-- The amended C5 equivalence evaluated on the document a, newline,
newline, b, which both implementations split into the paragraphs a and b. -/
theorem C5_segmentation_equiv_amended_witness :
    splitIntoParagraphsEditor [('a' : Char), '\n', '\n', 'b'] =
      (splitIntoParagraphsPage [('a' : Char), '\n', '\n', 'b']).map
        PageParagraph.content := by
  refine C5_segmentation_equiv_amended [('a' : Char), '\n', '\n', 'b'] ?_ (by decide)
  intro u w v heq hws c hcw
  cases u with
  | nil => simp at heq
  | cons x u1 =>
    rw [List.cons_append] at heq
    simp only [List.cons.injEq] at heq
    obtain ⟨-, heq1⟩ := heq
    cases u1 with
    | nil =>
      simp only [List.nil_append, List.cons.injEq] at heq1
      obtain ⟨-, heq2⟩ := heq1
      cases w with
      | nil => exact absurd hcw (by simp)
      | cons y w1 =>
        rw [List.cons_append] at heq2
        simp only [List.cons.injEq] at heq2
        obtain ⟨hy, heq3⟩ := heq2
        cases w1 with
        | nil =>
          have hc : c = y := by simpa using hcw
          rw [hc, ← hy]
        | cons z w2 =>
          rw [List.cons_append] at heq3
          simp at heq3
    | cons y u2 =>
      rw [List.cons_append] at heq1
      simp only [List.cons.injEq] at heq1
      obtain ⟨-, heq2⟩ := heq1
      cases u2 with
      | nil =>
        simp only [List.nil_append, List.cons.injEq] at heq2
        obtain ⟨-, heq3⟩ := heq2
        cases w with
        | nil => simp at heq3
        | cons z w2 =>
          rw [List.cons_append] at heq3
          simp at heq3
      | cons z u3 =>
        rw [List.cons_append] at heq2
        simp only [List.cons.injEq] at heq2
        obtain ⟨-, heq3⟩ := heq2
        have hlen := congrArg List.length heq3
        simp only [List.length_cons, List.length_nil, List.length_append] at hlen
        exfalso
        omega

end Fermatter
